import Mathlib

/-!
# Verification of the queue engine of `queue.c`

The program manipulates intrusive, circular, doubly-linked lists.  The embedding is a
pointer-level one: a heap maps node addresses to their `next` and `prev` links, to the string
owned by the element that contains the node, and (for chain nodes of queue contexts) to the
queue the context refers to.  Address `0` is `NULL`.

Every C function of `queue.c` is translated statement by statement into a function on heaps.

* Loops are recursive functions that consume fuel; running out of fuel is the fault
  `outOfFuel`.  The theorems state that enough fuel yields the result.
* A queue handle passed by the caller may be absent (`NULL`); a function that dereferences
  such a handle without a check returns the fault `nullDeref`.  Nodes reached by following the
  links of a well-formed queue are never `NULL`, so link accesses inside the loops are plain
  reads and writes of the heap.
* C `int` values are unbounded integers: queue lengths stay below `INT_MAX`.
* The local sentinel `right` of `q_sort` lives at a stack address that is passed to the model
  as `frame`.
* `malloc` and `strdup` are external: what they return is a parameter of the functions that
  call them (`ret`, `dup_ok`).  A string is the list of its bytes before the terminating NUL,
  and the buffer that `q_remove_head` and `q_remove_tail` fill is passed as the bytes of the
  region it points to.

The abstraction relation `IsQueue m head L` states that, in heap `m`, the sentinel `head`
anchors a well-formed circular list whose data nodes are, in forward order, `L`.  Each
function is proved to refine a list-level description, from which the claims follow.
-/

namespace Queue

/-! ## Memory model -/

/-- Reasons for which a run of a function does not produce a result. -/
inductive Fault where
  | nullDeref
  | outOfFuel
  deriving DecidableEq, Repr

/-- Result of a run: a value or a fault. -/
abbrev Res (α : Type) := Except Fault α

/-- The heap: link fields of every `struct list_head`, the `value` of the `element_t` that
contains a node (`list_entry(node, element_t, list)->value`, as the bytes before the
terminating NUL), the `q` field of the `queue_contex_t` that contains a chain node, and the
elements released so far. -/
structure Heap where
  next : Nat → Nat
  prev : Nat → Nat
  value : Nat → List Nat
  q : Nat → Nat
  freed : List Nat

/-- Store `p->next = v`. -/
def Heap.setNext (m : Heap) (p v : Nat) : Heap :=
  { m with next := fun x => if x = p then v else m.next x }

/-- Store `p->prev = v`. -/
def Heap.setPrev (m : Heap) (p v : Nat) : Heap :=
  { m with prev := fun x => if x = p then v else m.prev x }

/-- Store the string `v` as the value of the element at `p`. -/
def Heap.setValue (m : Heap) (p : Nat) (v : List Nat) : Heap :=
  { m with value := fun x => if x = p then v else m.value x }

/-- Store `p->q = v` in the queue context whose chain node is `p`. -/
def Heap.setQ (m : Heap) (p v : Nat) : Heap :=
  { m with q := fun x => if x = p then v else m.q x }

/-! ## External collaborators: `strcmp`, `list.h`, element release -/

/-- The C library `strcmp` on the bytes of two strings: the sign of the difference of the
first pair of bytes that differ, the end of a string reading as the terminating `0`. -/
def strcmp : List Nat → List Nat → Int
  | [], [] => 0
  | [], b :: _ => -(b : Int)
  | a :: _, [] => (a : Int)
  | a :: as, b :: bs =>
    if a ≠ b then (a : Int) - (b : Int) else if a = 0 then 0 else strcmp as bs

/-- The string that a `char *` designates: the bytes before the first NUL. -/
def cstr (s : List Nat) : List Nat :=
  s.takeWhile (fun b => b != 0)

/-- The C library `strncpy (dst, src, n)` on the bytes `dst` of the destination region:
exactly `n` bytes are written, the bytes of the source string followed by NUL bytes when the
string is shorter than `n`; when the string has `n` bytes or more, its first `n` bytes are
written and no NUL. -/
def strncpy (dst src : List Nat) (n : Nat) : List Nat :=
  (cstr src ++ List.replicate (n - (cstr src).length) 0).take n ++ dst.drop n

/-- The C library `free` on a block obtained from `malloc`. -/
def free (m : Heap) (p : Nat) : Heap :=
  { m with freed := p :: m.freed }

/-- Modelled from the spec: `INIT_LIST_HEAD` of `list.h` (not under src/), which makes a
sentinel self-linked, i.e. an empty queue (§3). -/
def INIT_LIST_HEAD (m : Heap) (head : Nat) : Heap :=
  let m := m.setNext head head
  m.setPrev head head

/-- Modelled from the spec: `list_add` of `list.h` (not under src/), which links `node`
immediately after `head` (§4.1). -/
def list_add (m : Heap) (node head : Nat) : Heap :=
  let next := m.next head
  let m := m.setPrev next node
  let m := m.setNext node next
  let m := m.setPrev node head
  m.setNext head node

/-- Modelled from the spec: `list_add_tail` of `list.h` (not under src/), which links `node`
immediately before `head` (§4.1). -/
def list_add_tail (m : Heap) (node head : Nat) : Heap :=
  let prev := m.prev head
  let m := m.setNext prev node
  let m := m.setNext node head
  let m := m.setPrev node prev
  m.setPrev head node

/-- Modelled from the spec: `list_del` of `list.h` (not under src/), which unlinks `node` by
joining its two neighbours (§4.1, remove). -/
def list_del (m : Heap) (node : Nat) : Heap :=
  let next := m.next node
  let prev := m.prev node
  let m := m.setPrev next prev
  m.setNext prev next

/-- Modelled from the spec: `list_move_tail` of `list.h` (not under src/), which unlinks
`node` and links it immediately before `head` (§4.2, splice before a position). -/
def list_move_tail (m : Heap) (node head : Nat) : Heap :=
  list_add_tail (list_del m node) node head

/-- Modelled from the spec: `list_empty` of `list.h` (not under src/): a queue is empty iff the
sentinel's `next` points to itself (§3). -/
def list_empty (m : Heap) (head : Nat) : Bool :=
  m.next head == head

/-- Modelled from the spec: `list_is_singular` of `list.h` (not under src/): the queue is not
empty and its first node is its last node (§4.3, single-element queue). -/
def list_is_singular (m : Heap) (head : Nat) : Bool :=
  !list_empty m head && m.prev head == m.next head

/-- Modelled from the spec: `list_cut_position` of `list.h` (not under src/), which moves the
nodes from the first one up to and including `node` out of `head_from` into `head_to`
(§4.3 and glossary, cut). -/
def list_cut_position (m : Heap) (head_to head_from node : Nat) : Heap :=
  let head_from_first := m.next head_from
  if list_empty m head_from then m
  else if head_from = node then INIT_LIST_HEAD m head_to
  else
    let m := m.setNext head_from (m.next node)
    let m := m.setPrev (m.next head_from) head_from
    let m := m.setPrev head_to node
    let m := m.setNext node head_to
    let m := m.setNext head_to head_from_first
    m.setPrev (m.next head_to) head_to

/-- Modelled from the spec: `q_release_element` of the harness (not under src/), which
releases a detached element (§6, element lifecycle). -/
def q_release_element (m : Heap) (e : Nat) : Heap :=
  { m with freed := e :: m.freed }

/-! ## `queue.c` -/

/-- Source `ele_compare`. -/
def ele_compare (m : Heap) (a b : Nat) : Int :=
  strcmp (m.value a) (m.value b)

/-- Source `ele_compare_less`. -/
def ele_compare_less (m : Heap) (a b : Nat) : Bool :=
  decide (ele_compare m a b < 0)

/-- Source `ele_compare_greater`. -/
def ele_compare_greater (m : Heap) (a b : Nat) : Bool :=
  decide (ele_compare m a b > 0)

/-- Source `e_new`.  `ret` is the address that `malloc` returns (`0` when it fails) and
`dup_ok` tells whether `strdup` succeeds. -/
def e_new (m : Heap) (value : List Nat) (ret : Nat) (dup_ok : Bool) : Heap × Nat :=
  if ret = 0 then (m, 0)
  else if !dup_ok then (free m ret, 0)
  else (m.setValue ret (cstr value), ret)

/-- Source `q_new`; `ret` is the address that `malloc` returns (`0` when it fails). -/
def q_new (m : Heap) (ret : Nat) : Heap × Nat :=
  if ret ≠ 0 then (INIT_LIST_HEAD m ret, ret) else (m, ret)

/-- The `list_for_each_entry_safe (entry, safe, head, list)` loop of `q_free`. -/
def q_free_loop : Nat → Heap → Nat → Nat → Nat → Res Heap
  | 0, _, _, _, _ => .error .outOfFuel
  | fuel + 1, m, head, entry, safe =>
    if entry = head then .ok m
    else q_free_loop fuel (q_release_element m entry) head safe (m.next safe)

/-- Source `q_free`. -/
def q_free (fuel : Nat) (m : Heap) (head : Nat) : Res Heap :=
  if head = 0 then .ok m
  else do
    let m ← q_free_loop fuel m head (m.next head) (m.next (m.next head))
    return free m head

/-- Source `q_insert_head`. -/
def q_insert_head (m : Heap) (head : Nat) (s : List Nat) (ret : Nat) (dup_ok : Bool) :
    Heap × Bool :=
  if head = 0 then (m, false)
  else
    let (m, ele) := e_new m s ret dup_ok
    if ele = 0 then (m, false)
    else (list_add m ele head, true)

/-- Source `q_insert_tail`. -/
def q_insert_tail (m : Heap) (head : Nat) (s : List Nat) (ret : Nat) (dup_ok : Bool) :
    Heap × Bool :=
  if head = 0 then (m, false)
  else
    let (m, new_ele) := e_new m s ret dup_ok
    if new_ele = 0 then (m, false)
    else (list_add_tail m new_ele head, true)

/-- Source `q_remove_head`.  The caller's buffer is passed as the bytes `sp` of the region it
points to (`none` for a `NULL` pointer); the result is the heap, the removed element (`0`
for `NULL`) and the buffer. -/
def q_remove_head (m : Heap) (head : Nat) (sp : Option (List Nat)) (bufsize : Nat) :
    Res (Heap × Nat × Option (List Nat)) :=
  if head = 0 || list_empty m head then .ok (m, 0, sp)
  else
    let entry := m.next head
    match sp with
    | none => .error .nullDeref
    | some buf =>
      let buf := strncpy buf (m.value entry) bufsize
      let m := list_del m entry
      .ok (m, entry, some buf)

/-- Source `q_remove_tail`, with the buffer passed as for `q_remove_head`. -/
def q_remove_tail (m : Heap) (head : Nat) (sp : Option (List Nat)) (bufsize : Nat) :
    Res (Heap × Nat × Option (List Nat)) :=
  if head = 0 || list_empty m head then .ok (m, 0, sp)
  else
    let entry := m.prev head
    match sp with
    | none => .error .nullDeref
    | some buf =>
      let buf := strncpy buf (m.value entry) bufsize
      let m := list_del m entry
      .ok (m, entry, some buf)

/-- The `list_for_each` loop of `q_size`. -/
def q_size_loop : Nat → Heap → Nat → Nat → Int → Res Int
  | 0, _, _, _, _ => .error .outOfFuel
  | fuel + 1, m, head, node, ret =>
    if node = head then .ok ret
    else q_size_loop fuel m head (m.next node) (ret + 1)

/-- Source `q_size`. -/
def q_size (fuel : Nat) (m : Heap) (head : Nat) : Res Int :=
  if head = 0 then .ok (-1)
  else if list_empty m head then .ok 0
  else q_size_loop fuel m head (m.next head) 0

/-- The inner `while (dest_next != dest)` loop of `q_merge_two_queues`; it returns the heap,
the cursor `dest_next` and the flag `inserted`. -/
def q_merge_two_queues_while :
    Nat → Heap → (Heap → Nat → Nat → Bool) → Nat → Nat → Nat → Res (Heap × Nat × Bool)
  | 0, _, _, _, _, _ => .error .outOfFuel
  | fuel + 1, m, comp_func, dest, cur_src, dest_next =>
    if dest_next = dest then .ok (m, dest_next, false)
    else if comp_func m cur_src dest_next then
      .ok (list_move_tail m cur_src dest_next, dest_next, true)
    else q_merge_two_queues_while fuel m comp_func dest cur_src (m.next dest_next)

/-- The `list_for_each_safe (cur_src, safe, src)` loop of `q_merge_two_queues`. -/
def q_merge_two_queues_for :
    Nat → Heap → (Heap → Nat → Nat → Bool) → Nat → Nat → Nat → Nat → Nat → Res Heap
  | 0, _, _, _, _, _, _, _ => .error .outOfFuel
  | fuel + 1, m, comp_func, dest, src, cur_src, safe, dest_next =>
    if cur_src = src then .ok m
    else do
      let (m, dest_next, inserted) ←
        q_merge_two_queues_while (fuel + 1) m comp_func dest cur_src dest_next
      if !inserted then
        let m := list_move_tail m cur_src dest
        let dest_next := m.next (m.prev dest)
        q_merge_two_queues_for fuel m comp_func dest src safe (m.next safe) dest_next
      else
        q_merge_two_queues_for fuel m comp_func dest src safe (m.next safe) dest_next

/-- Source `q_merge_two_queues`. -/
def q_merge_two_queues (fuel : Nat) (m : Heap) (dest src : Nat) (is_descend : Bool) :
    Res (Heap × Int) := do
  let comp_func := if is_descend then ele_compare_greater else ele_compare_less
  let total_size := (← q_size fuel m dest) + (← q_size fuel m src)
  if dest = 0 then throw .nullDeref
  let dest_next := m.next dest
  if src = 0 then throw .nullDeref
  let m ← q_merge_two_queues_for fuel m comp_func dest src (m.next src) (m.next (m.next src))
    dest_next
  return (m, total_size)

/-- The `list_for_each_entry_safe (entry, safe, head, list)` loop of `q_delete_mid`. -/
def q_delete_mid_loop : Nat → Heap → Nat → Nat → Nat → Int → Int → Res (Heap × Bool)
  | 0, _, _, _, _, _, _ => .error .outOfFuel
  | fuel + 1, m, head, entry, safe, target, idx =>
    if entry = head then .ok (m, true)
    else if idx = target then
      let m := list_del m entry
      let m := q_release_element m entry
      .ok (m, true)
    else q_delete_mid_loop fuel m head safe (m.next safe) target (idx + 1)

/-- Source `q_delete_mid`. -/
def q_delete_mid (fuel : Nat) (m : Heap) (head : Nat) : Res (Heap × Bool) :=
  if head = 0 || list_empty m head then .ok (m, false)
  else do
    let len ← q_size fuel m head
    let target := Int.tdiv len 2
    let idx := 0
    q_delete_mid_loop fuel m head (m.next head) (m.next (m.next head)) target idx

/-- The `list_for_each_safe (node, safe, head)` loop of `q_delete_dup`. -/
def q_delete_dup_loop : Nat → Heap → Nat → Nat → Nat → Bool → Res Heap
  | 0, _, _, _, _, _ => .error .outOfFuel
  | fuel + 1, m, head, node, safe, delete_next =>
    if node = head then .ok m
    else
      let cur := node
      let next := m.next node
      let match_ := (m.next node != head)
      let match_ :=
        if match_ then match_ && (strcmp (m.value cur) (m.value next) == 0) else match_
      let m := if match_ || delete_next then q_release_element (list_del m node) cur else m
      let delete_next := match_
      q_delete_dup_loop fuel m head safe (m.next safe) delete_next

/-- Source `q_delete_dup`. -/
def q_delete_dup (fuel : Nat) (m : Heap) (head : Nat) : Res (Heap × Bool) :=
  if head = 0 then .ok (m, false)
  else if list_empty m head then .ok (m, true)
  else do
    let m ← q_delete_dup_loop fuel m head (m.next head) (m.next (m.next head)) false
    return (m, true)

/-- The `list_for_each (now, head)` loop of `q_swap`. -/
def q_swap_loop : Nat → Heap → Nat → Nat → Res Heap
  | 0, _, _, _ => .error .outOfFuel
  | fuel + 1, m, head, now =>
    if now = head then .ok m
    else if m.next now = head then .ok m
    else
      let next := m.next now
      let prev := m.prev now
      let m := list_del m next
      let m := m.setPrev now next
      let m := m.setPrev next prev
      let m := m.setNext prev next
      let m := m.setNext next now
      q_swap_loop fuel m head (m.next now)

/-- Source `q_swap`; the loop header reads `head->next` without a check of `head`. -/
def q_swap (fuel : Nat) (m : Heap) (head : Nat) : Res Heap :=
  if head = 0 then .error .nullDeref
  else q_swap_loop fuel m head (m.next head)

/-- The `for (;;)` loop of `q_reverse`. -/
def q_reverse_loop : Nat → Heap → Nat → Nat → Res Heap
  | 0, _, _, _ => .error .outOfFuel
  | fuel + 1, m, head, cur =>
    let next := m.next cur
    let m := m.setNext cur (m.prev cur)
    let m := m.setPrev cur next
    let cur := next
    if cur = head then .ok m
    else q_reverse_loop fuel m head cur

/-- Source `q_reverse`. -/
def q_reverse (fuel : Nat) (m : Heap) (head : Nat) : Res Heap :=
  if head = 0 || list_empty m head then .ok m
  else q_reverse_loop fuel m head head

/-- Source `q_reverseK`. -/
def q_reverseK (fuel : Nat) (m : Heap) (head : Nat) (k : Int) : Res Heap :=
  if head = 0 || list_empty m head then .ok m
  else do
    let size ← q_size fuel m head
    if k ≥ size then q_reverse fuel m head
    else return m

/-- The slow/fast pointer walk of `q_sort`; it returns `slow`. -/
def q_sort_walk : Nat → Heap → Nat → Nat → Nat → Res Nat
  | 0, _, _, _, _ => .error .outOfFuel
  | fuel + 1, m, head, fast, slow =>
    if fast != head && m.next fast != head then
      q_sort_walk fuel m head (m.next (m.next fast)) (m.next slow)
    else .ok slow

/-- Source `q_sort`.  The local sentinel `right` lives in the stack frame of the call, at
address `frame`; the frames of the two recursive calls lie beyond it. -/
def q_sort : Nat → Heap → Nat → Bool → Nat → Res Heap
  | 0, _, _, _, _ => .error .outOfFuel
  | fuel + 1, m, head, descend, frame =>
    if head = 0 || list_empty m head || list_is_singular m head then .ok m
    else do
      let slow ← q_sort_walk (fuel + 1) m head (m.next head) head
      let right := frame
      let m := list_cut_position m right head slow
      let m ← q_sort fuel m head descend (frame + 1)
      let m ← q_sort fuel m right descend (frame + 1)
      let (m, _) ← q_merge_two_queues (fuel + 1) m head right descend
      return m

/-- Source `q_ascend`. -/
def q_ascend (_m : Heap) (_head : Nat) : Int := 0

/-- Source `q_descend`. -/
def q_descend (_m : Heap) (_head : Nat) : Int := 0

/-- The `list_for_each_safe (node, safe, head)` loop of `q_merge`; a chain node stands for the
`queue_contex_t` that contains it. -/
def q_merge_loop : Nat → Heap → Nat → Nat → Nat → Nat → Bool → Int → Res (Heap × Int)
  | 0, _, _, _, _, _, _, _ => .error .outOfFuel
  | fuel + 1, m, head, first, node, safe, descend, cnt =>
    if node = head then .ok (m, cnt)
    else
      let cur_ctx := node
      if cur_ctx = first then q_merge_loop fuel m head first safe (m.next safe) descend cnt
      else do
        let (m, cnt) ← q_merge_two_queues fuel m (m.q first) (m.q cur_ctx) descend
        q_merge_loop fuel m head first safe (m.next safe) descend cnt

/-- Source `q_merge`. -/
def q_merge (fuel : Nat) (m : Heap) (head : Nat) (descend : Bool) : Res (Heap × Int) :=
  if head = 0 || list_empty m head then .ok (m, 0)
  else if list_is_singular m head then do
    let size ← q_size fuel m (m.q (m.next head))
    return (m, size)
  else
    let cnt := 0
    let first := m.next head
    q_merge_loop fuel m head first (m.next head) (m.next (m.next head)) descend cnt

/-! ## Abstraction relation -/

/-- Nodes `a` and `b` are neighbours: `a->next == b` and `b->prev == a`. -/
def Link (m : Heap) (a b : Nat) : Prop :=
  m.next a = b ∧ m.prev b = a

instance (m : Heap) (a b : Nat) : Decidable (Link m a b) :=
  inferInstanceAs (Decidable (m.next a = b ∧ m.prev b = a))

/-- The circular doubly-linked invariant of §3: following `next` from the sentinel `head`
passes through the data nodes `L`, once each and in this order, and returns to the sentinel;
`prev` is the exact inverse of `next`; no node is `NULL`. -/
def IsQueue (m : Heap) (head : Nat) (L : List Nat) : Prop :=
  List.Chain' (Link m) (head :: L ++ [head]) ∧ (head :: L).Nodup ∧ 0 ∉ head :: L

/-- Decision procedure for "consecutive nodes of `l` are neighbours", by recursion on `l`. -/
def decLinked (m : Heap) : (l : List Nat) → Decidable (List.Chain' (Link m) l)
  | [] => isTrue List.chain'_nil
  | [_] => isTrue (List.chain'_singleton _)
  | a :: b :: l =>
    match (inferInstance : Decidable (Link m a b)), decLinked m (b :: l) with
    | isTrue h1, isTrue h2 => isTrue (List.chain'_cons.2 ⟨h1, h2⟩)
    | isFalse h1, _ => isFalse (fun h => h1 (List.chain'_cons.1 h).1)
    | _, isFalse h2 => isFalse (fun h => h2 (List.chain'_cons.1 h).2)

instance (m : Heap) (head : Nat) (L : List Nat) : Decidable (IsQueue m head L) :=
  @instDecidableAnd _ _ (decLinked m (head :: L ++ [head])) inferInstance

/-- The values of the nodes `L` are in `strcmp` order: non-decreasing when `descend` is
false, non-increasing when it is true. -/
def Sorted (m : Heap) (descend : Bool) (L : List Nat) : Prop :=
  L.Pairwise (fun a b => if descend then 0 ≤ ele_compare m a b else ele_compare m a b ≤ 0)

instance (m : Heap) (descend : Bool) (L : List Nat) : Decidable (Sorted m descend L) :=
  inferInstanceAs (Decidable (L.Pairwise
    (fun a b => if descend then 0 ≤ ele_compare m a b else ele_compare m a b ≤ 0)))

/-- The heaps agree on the links of every node of `X`. -/
def SameLinks (m m' : Heap) (X : List Nat) : Prop :=
  ∀ x ∈ X, m'.next x = m.next x ∧ m'.prev x = m.prev x

/-- The heaps agree on the links of every node outside `X`. -/
def FrameOff (m m' : Heap) (X : List Nat) : Prop :=
  ∀ x, x ∉ X → m'.next x = m.next x ∧ m'.prev x = m.prev x

/-- First node of the run `B`, or the sentinel `h` when the run is empty: the node a forward
cursor stands on when `B` is what remains ahead of it. -/
def hd (B : List Nat) (h : Nat) : Nat := B.head?.getD h

/-- Last node of the run `A`, or the sentinel `h` when the run is empty. -/
def lst (A : List Nat) (h : Nat) : Nat := A.getLast?.getD h

/-- List-level description of the cursor merge of §4.2: for each element `s` taken from the
source in order, the destination elements that `s` does not strictly precede stay in front of
it, and the cursor continues from the first one that `s` strictly precedes. -/
def mergeList (comp : Nat → Nat → Bool) : List Nat → List Nat → List Nat
  | [], D => D
  | s :: S, D =>
    D.takeWhile (fun d => !comp s d) ++ s :: mergeList comp S (D.dropWhile (fun d => !comp s d))

/-- A heap with no links set and no values stored. -/
def Heap.init : Heap :=
  { next := fun _ => 0, prev := fun _ => 0, value := fun _ => [], q := fun _ => 0, freed := [] }

/-- Build a queue: initialise the sentinel `head`, then link the elements `L` (address and
value of each) at the tail, one after the other. -/
def mkQueue (m : Heap) (head : Nat) (L : List (Nat × List Nat)) : Heap :=
  L.foldl (fun m e => list_add_tail (m.setValue e.1 e.2) e.1 head) (INIT_LIST_HEAD m head)

/-- Nodes of the queue that the context with chain node `k.1` refers to: its sentinel and its
data nodes `k.2`. -/
def ctxNodes (m : Heap) (k : Nat × List Nat) : List Nat := m.q k.1 :: k.2

/-- List-level description of the sweep of `q_delete_dup`: an element is dropped when its
value equals that of its successor or when its predecessor was found equal to it. -/
def dedupList (v : Nat → List Nat) : Bool → List Nat → List Nat
  | _, [] => []
  | d, x :: rest =>
    let mt := !rest.isEmpty && (strcmp (v x) (v (hd rest 0)) == 0)
    (if mt || d then [] else [x]) ++ dedupList v mt rest

/-- Number of elements of `L` whose value is the string of `x`. -/
def occurrences (v : Nat → List Nat) (L : List Nat) (x : Nat) : Nat :=
  L.countP (fun y => strcmp (v y) (v x) == 0)

/-- List-level description of `q_swap`: `[a0, a1, a2, a3, ...]` becomes
`[a1, a0, a3, a2, ...]`, an odd trailing element staying in place. -/
def swapPairs : List Nat → List Nat
  | a :: b :: rest => b :: a :: swapPairs rest
  | l => l

/-- The heap in which every node of `X` has its `next` and `prev` links exchanged. -/
def flipAll (m : Heap) (X : List Nat) : Heap :=
  { m with
    next := fun y => if y ∈ X then m.prev y else m.next y
    prev := fun y => if y ∈ X then m.next y else m.prev y }

/-! ## Example heaps -/

/-- Two sorted queues: sentinel `1` with nodes `2`, `3` holding "a", "c" and sentinel `5` with
nodes `6`, `7` holding "b", "d". -/
def exMerge : Heap :=
  mkQueue (mkQueue Heap.init 1 [(2, [97]), (3, [99])]) 5 [(6, [98]), (7, [100])]


/-- The queue "bob", "alice", "carl" of §8, at nodes `2`, `3`, `4` of sentinel `1`. -/
def exSort : Heap :=
  mkQueue Heap.init 1 [(2, [98, 111, 98]), (3, [97, 108, 105, 99, 101]), (4, [99, 97, 114, 108])]

/-- A queue of two elements with the same value "a", at nodes `2`, `3` of sentinel `1`. -/
def exTie : Heap :=
  mkQueue Heap.init 1 [(2, [97]), (3, [97])]


/-- A chain with sentinel `20` of three contexts `21`, `22`, `23` whose queues are anchored at
`1` ("a", "c"), `5` ("b") and `9` ("a", "d"). -/
def exChain : Heap :=
  (((mkQueue (mkQueue (mkQueue (mkQueue Heap.init 1 [(2, [97]), (3, [99])]) 5 [(6, [98])]) 9
    [(10, [97]), (11, [100])]) 20 [(21, []), (22, []), (23, [])]).setQ 21 1).setQ 22 5).setQ 23 9


/-- The sorted queue "a", "a", "b", "c", "c" of §8, at nodes `2` to `6` of sentinel `1`. -/
def exDup : Heap :=
  mkQueue Heap.init 1 [(2, [97]), (3, [97]), (4, [98]), (5, [99]), (6, [99])]


/-- A queue of five elements "a" to "e", at nodes `2` to `6` of sentinel `1`. -/
def exFive : Heap :=
  mkQueue Heap.init 1 [(2, [97]), (3, [98]), (4, [99]), (5, [100]), (6, [101])]


/-- An empty queue with sentinel `1`. -/
def exEmpty : Heap := mkQueue Heap.init 1 []


/-- The queue "ab", "cd", at nodes `2`, `3` of sentinel `1`. -/
def exLong : Heap :=
  mkQueue Heap.init 1 [(2, [97, 98]), (3, [99, 100])]

/-- The queue "b", "c", at nodes `2`, `3` of sentinel `1`. -/
def exIns : Heap := mkQueue Heap.init 1 [(2, [98]), (3, [99])]

/-- The queue "b", "a", at nodes `2`, `3` of sentinel `1`. -/
def exDown : Heap := mkQueue Heap.init 1 [(2, [98]), (3, [97])]

/-- The queue "a", "b", at nodes `2`, `3` of sentinel `1`. -/
def exUp : Heap := mkQueue Heap.init 1 [(2, [97]), (3, [98])]

/-- Two sorted queues with ties: sentinel `1` with nodes `2`, `3` holding "a", "b" and
sentinel `5` with nodes `6`, `7` holding "a", "b". -/
def exStable : Heap :=
  mkQueue (mkQueue Heap.init 1 [(2, [97]), (3, [98])]) 5 [(6, [97]), (7, [98])]

/-! ## Lemmas -/

/-! ### The order induced by `strcmp` -/

theorem strcmp_antisymm : ∀ a b : List Nat, strcmp a b = -strcmp b a
  | [], [] => by simp [strcmp]
  | [], b :: _ => by simp [strcmp]
  | a :: _, [] => by simp [strcmp]
  | a :: as, b :: bs => by
    have ih := strcmp_antisymm as bs
    by_cases hab : a = b
    · subst hab
      by_cases h0 : a = 0 <;> simp [strcmp, h0, ih]
    · have hba : ¬ b = a := fun h => hab h.symm
      simp [strcmp, hab, hba]

theorem strcmp_trans : ∀ a b c : List Nat, strcmp a b ≤ 0 → strcmp b c ≤ 0 → strcmp a c ≤ 0
  | [], _, [] => by simp [strcmp]
  | [], _, c :: _ => by simp [strcmp]
  | a :: _, [], [] => by simp [strcmp]
  | a :: _, [], c :: _ => by
    simp only [strcmp]; intro h1 h2; split_ifs <;> omega
  | a :: as, b :: bs, [] => by
    simp only [strcmp]; intro h1 h2; split_ifs at h1 <;> omega
  | a :: as, b :: bs, c :: cs => by
    have ih := strcmp_trans as bs cs
    simp only [strcmp]; intro h1 h2
    split_ifs at h1 h2 ⊢ <;> omega


theorem mergeList_perm (comp : Nat → Nat → Bool) :
    ∀ S D : List Nat, (mergeList comp S D).Perm (D ++ S)
  | [], D => by simp [mergeList]
  | s :: S, D => by
    have ih := mergeList_perm comp S (D.dropWhile (fun d => !comp s d))
    have h1 : (D.takeWhile (fun d => !comp s d) ++
        s :: mergeList comp S (D.dropWhile (fun d => !comp s d))).Perm
        (D.takeWhile (fun d => !comp s d) ++ s :: (D.dropWhile (fun d => !comp s d) ++ S)) :=
      List.Perm.append_left _ (List.Perm.cons _ ih)
    have h2 : (D.takeWhile (fun d => !comp s d) ++
        s :: (D.dropWhile (fun d => !comp s d) ++ S)).Perm
        (s :: (D.takeWhile (fun d => !comp s d) ++ (D.dropWhile (fun d => !comp s d) ++ S))) :=
      List.perm_middle
    have h3 : (D ++ s :: S).Perm (s :: (D ++ S)) := List.perm_middle
    rw [← List.append_assoc, List.takeWhile_append_dropWhile] at h2
    exact (h1.trans h2).trans h3.symm

theorem mergeList_pairwise (r : Nat → Nat → Prop) (comp : Nat → Nat → Bool)
    (hcomp : ∀ s d, comp s d = true ↔ ¬ r d s) (htot : ∀ a b, r a b ∨ r b a)
    (htr : ∀ a b c, r a b → r b c → r a c) :
    ∀ S D : List Nat, S.Pairwise r → D.Pairwise r → (mergeList comp S D).Pairwise r
  | [], D, _, hD => by simpa [mergeList] using hD
  | s :: S, D, hS, hD => by
    have hsplit := List.takeWhile_append_dropWhile (fun d => !comp s d) D
    generalize hD0 : D.takeWhile (fun d => !comp s d) = D0 at hsplit
    generalize hD1 : D.dropWhile (fun d => !comp s d) = D1 at hsplit
    have hD' : (D0 ++ D1).Pairwise r := by rw [hsplit]; exact hD
    rw [List.pairwise_append] at hD'
    obtain ⟨hP0, hP1, h01⟩ := hD'
    rw [List.pairwise_cons] at hS
    have ih := mergeList_pairwise r comp hcomp htot htr S D1 hS.2 hP1
    have hmem : ∀ x ∈ mergeList comp S D1, x ∈ D1 ∨ x ∈ S := by
      intro x hx
      simpa using (mergeList_perm comp S D1).subset hx
    have h0s : ∀ a ∈ D0, r a s := by
      intro a ha
      rw [← hD0] at ha
      have := List.mem_takeWhile_imp ha
      by_contra hn
      have := (hcomp s a).2 hn
      simp_all
    have hs1 : ∀ b ∈ D1, r s b := by
      intro b hb
      cases D1 with
      | nil => simp at hb
      | cons d D1' =>
        have hd : comp s d = true := by
          have := List.head_dropWhile_not (fun d => !comp s d) D
            (by rw [hD1]; simp)
          simp [hD1] at this
          exact this
        have hsd : r s d := by
          rcases htot s d with h | h
          · exact h
          · exact absurd h ((hcomp s d).1 hd)
        rcases List.mem_cons.1 hb with rfl | hb'
        · exact hsd
        · exact htr _ _ _ hsd (List.rel_of_pairwise_cons hP1 hb')
    simp only [mergeList, hD0, hD1]
    rw [List.pairwise_append, List.pairwise_cons]
    refine ⟨hP0, ⟨?_, ih⟩, ?_⟩
    · intro x hx
      rcases hmem x hx with h | h
      · exact hs1 x h
      · exact hS.1 x h
    · intro a ha b hb
      rcases List.mem_cons.1 hb with rfl | hb'
      · exact h0s a ha
      · rcases hmem b hb' with h | h
        · exact h01 a ha b h
        · exact htr _ _ _ (h0s a ha) (hS.1 b h)


/-! ### Link primitives on well-formed queues -/

theorem chain_frame {m m' : Heap} : ∀ {l : List Nat}, List.Chain' (Link m) l →
    (∀ a ∈ l.dropLast, m'.next a = m.next a) → (∀ b ∈ l.tail, m'.prev b = m.prev b) →
    List.Chain' (Link m') l
  | [], _, _, _ => List.chain'_nil
  | [_], _, _, _ => List.chain'_singleton _
  | a :: b :: l, h, hn, hp => by
    rw [List.chain'_cons] at h ⊢
    refine ⟨⟨?_, ?_⟩, chain_frame h.2 ?_ ?_⟩
    · rw [hn a (by simp)]; exact h.1.1
    · rw [hp b (by simp)]; exact h.1.2
    · intro x hx; exact hn x (by simp [List.dropLast]; right; exact hx)
    · intro x hx; exact hp x (by simp at hx ⊢; right; exact hx)

/-- Unlinking `x` from a segment `U ++ [p, x, n] ++ V`. -/
theorem chain_del {m : Heap} {U V : List Nat} {p x n : Nat}
    (hc : List.Chain' (Link m) (U ++ p :: x :: n :: V))
    (h1 : p ∉ U) (h2 : n ∉ (U ++ [p]).tail) (h3 : p ∉ (n :: V).dropLast) (h4 : n ∉ V) :
    List.Chain' (Link (list_del m x)) (U ++ p :: n :: V) := by
  rw [List.chain'_split, List.chain'_cons, List.chain'_cons] at hc
  obtain ⟨hU, hpx, hxn, hV⟩ := hc
  have e1 : m.next x = n := hxn.1
  have e2 : m.prev x = p := hpx.2
  rw [List.chain'_split, List.chain'_cons]
  refine ⟨chain_frame hU ?_ ?_, ⟨?_, ?_⟩, chain_frame hV ?_ ?_⟩
  · intro a ha
    have : a ≠ p := by rintro rfl; simp at ha; exact h1 ha
    simp [list_del, Heap.setNext, Heap.setPrev, e1, e2, this]
  · intro b hb
    have : b ≠ n := by rintro rfl; exact h2 hb
    simp [list_del, Heap.setNext, Heap.setPrev, e1, e2, this]
  · simp [list_del, Heap.setNext, Heap.setPrev, e1, e2]
  · simp [list_del, Heap.setNext, Heap.setPrev, e1, e2]
  · intro a ha
    have : a ≠ p := by rintro rfl; exact h3 ha
    simp [list_del, Heap.setNext, Heap.setPrev, e1, e2, this]
  · intro b hb
    have : b ≠ n := by rintro rfl; exact h4 hb
    simp [list_del, Heap.setNext, Heap.setPrev, e1, e2, this]

theorem IsQueue.del {m : Heap} {h x : Nat} {A B : List Nat}
    (hq : IsQueue m h (A ++ x :: B)) : IsQueue (list_del m x) h (A ++ B) := by
  obtain ⟨hc, hnd, hz⟩ := hq
  refine ⟨?_, ?_, ?_⟩
  · rcases List.eq_nil_or_concat A with rfl | ⟨A', p, rfl⟩ <;> rcases B with _ | ⟨n, B'⟩
    · have := chain_del (U := []) (V := []) (p := h) (x := x) (n := h) (by simpa using hc)
        (by simp) (by simp) (by simp) (by simp)
      simpa using this
    · have := chain_del (U := []) (V := B' ++ [h]) (p := h) (x := x) (n := n) (by simpa using hc)
        (by simp) (by simp) (by
          rw [← List.cons_append, List.dropLast_concat]
          simp [List.nodup_append, List.nodup_cons] at hnd ⊢; tauto) (by simp [List.nodup_append, List.nodup_cons] at hnd ⊢; tauto)
      simpa using this
    · have := chain_del (U := h :: A') (V := []) (p := p) (x := x) (n := h) (by simpa using hc)
        (by simp [List.nodup_append, List.nodup_cons] at hnd ⊢; tauto) (by simp [List.nodup_append, List.nodup_cons] at hnd ⊢; tauto) (by simp) (by simp)
      simpa using this
    · have := chain_del (U := h :: A') (V := B' ++ [h]) (p := p) (x := x) (n := n)
        (by simpa using hc)
        (by simp [List.nodup_append, List.nodup_cons] at hnd ⊢; tauto) (by simp [List.nodup_append, List.nodup_cons] at hnd ⊢; tauto) (by
          rw [← List.cons_append, List.dropLast_concat]
          simp [List.nodup_append, List.nodup_cons] at hnd ⊢; tauto) (by simp [List.nodup_append, List.nodup_cons] at hnd ⊢; tauto)
      simpa using this
  · simp at hnd ⊢
    rw [List.nodup_append] at hnd ⊢
    simp at hnd ⊢
    tauto
  · simp at hz ⊢; tauto



@[simp] theorem hd_nil (h : Nat) : hd [] h = h := rfl
@[simp] theorem hd_cons (b : Nat) (B : List Nat) (h : Nat) : hd (b :: B) h = b := rfl
@[simp] theorem lst_nil (h : Nat) : lst [] h = h := rfl
@[simp] theorem lst_concat (a : Nat) (A : List Nat) (h : Nat) : lst (A ++ [a]) h = a := by
  simp [lst]

theorem hd_mem (B : List Nat) (h : Nat) : hd B h = h ∨ hd B h ∈ B := by
  cases B <;> simp

theorem lst_mem (A : List Nat) (h : Nat) : lst A h = h ∨ lst A h ∈ A := by
  rcases List.eq_nil_or_concat A with rfl | ⟨A', p, rfl⟩ <;> simp

theorem IsQueue.next_mid {m : Heap} {h x : Nat} {A B : List Nat}
    (hq : IsQueue m h (A ++ x :: B)) : m.next x = hd B h := by
  have hc := hq.1
  rw [show h :: (A ++ x :: B) ++ [h] = (h :: A) ++ x :: (B ++ [h]) by simp,
    List.chain'_split] at hc
  cases B with
  | nil => exact (List.chain'_cons.1 hc.2).1.1
  | cons b B => exact (List.chain'_cons.1 hc.2).1.1

theorem IsQueue.next_head {m : Heap} {h : Nat} {L : List Nat}
    (hq : IsQueue m h L) : m.next h = hd L h := by
  have hc := hq.1
  cases L with
  | nil => exact (List.chain'_cons.1 hc).1.1
  | cons b B => exact (List.chain'_cons.1 hc).1.1

theorem IsQueue.prev_mid {m : Heap} {h x : Nat} {A B : List Nat}
    (hq : IsQueue m h (A ++ x :: B)) : m.prev x = lst A h := by
  have hc := hq.1
  rcases List.eq_nil_or_concat A with rfl | ⟨A', p, rfl⟩
  · exact (List.chain'_cons.1 hc).1.2
  · rw [show h :: (A'.concat p ++ x :: B) ++ [h] = (h :: A') ++ p :: x :: (B ++ [h]) by simp,
      List.chain'_split, List.chain'_cons] at hc
    simpa using hc.2.1.2

theorem IsQueue.prev_head {m : Heap} {h : Nat} {L : List Nat}
    (hq : IsQueue m h L) : m.prev h = lst L h := by
  have hc := hq.1
  rcases List.eq_nil_or_concat L with rfl | ⟨A', p, rfl⟩
  · exact (List.chain'_cons.1 hc).1.2
  · rw [show h :: (A'.concat p) ++ [h] = (h :: A') ++ [p, h] by simp,
      List.chain'_split, List.chain'_cons] at hc
    simpa using hc.2.1.2

@[simp] theorem list_del_value (m : Heap) (x : Nat) : (list_del m x).value = m.value := rfl
@[simp] theorem list_del_q (m : Heap) (x : Nat) : (list_del m x).q = m.q := rfl
@[simp] theorem list_del_freed (m : Heap) (x : Nat) : (list_del m x).freed = m.freed := rfl
@[simp] theorem list_add_tail_value (m : Heap) (x p : Nat) :
    (list_add_tail m x p).value = m.value := rfl
@[simp] theorem list_add_tail_q (m : Heap) (x p : Nat) : (list_add_tail m x p).q = m.q := rfl
@[simp] theorem list_add_tail_freed (m : Heap) (x p : Nat) :
    (list_add_tail m x p).freed = m.freed := rfl

theorem IsQueue.del_frame {m : Heap} {h x : Nat} {A B : List Nat}
    (hq : IsQueue m h (A ++ x :: B)) : FrameOff m (list_del m x) (h :: A ++ B) := by
  intro y hy
  have e1 := hq.next_mid
  have e2 := hq.prev_mid
  have h1 : y ≠ lst A h := by
    rintro rfl; rcases lst_mem A h with e | e <;> simp [e] at hy
  have h2 : y ≠ hd B h := by
    rintro rfl; rcases hd_mem B h with e | e <;> simp [e] at hy
  simp [list_del, Heap.setNext, Heap.setPrev, e1, e2, h1, h2]

/-- Linking `x` into a segment `U ++ [p, n] ++ V` between `p` and `n`. -/
theorem chain_add_tail {m : Heap} {U V : List Nat} {p x n : Nat}
    (hc : List.Chain' (Link m) (U ++ p :: n :: V))
    (hx : x ∉ U ++ p :: n :: V)
    (h1 : p ∉ U) (h2 : n ∉ (U ++ [p]).tail) (h3 : p ∉ (n :: V).dropLast) (h4 : n ∉ V) :
    List.Chain' (Link (list_add_tail m x n)) (U ++ p :: x :: n :: V) := by
  rw [List.chain'_split, List.chain'_cons] at hc
  obtain ⟨hU, hpn, hV⟩ := hc
  have e2 : m.prev n = p := hpn.2
  have hxp : x ≠ p := by rintro rfl; simp at hx
  have hxn : x ≠ n := by rintro rfl; simp at hx
  rw [List.chain'_split, List.chain'_cons, List.chain'_cons]
  refine ⟨chain_frame hU ?_ ?_, ⟨?_, ?_⟩, ⟨?_, ?_⟩, chain_frame hV ?_ ?_⟩
  · intro a ha
    have : a ≠ p := by rintro rfl; simp at ha; exact h1 ha
    have : a ≠ x := by rintro rfl; simp at ha hx; tauto
    simp [list_add_tail, Heap.setNext, Heap.setPrev, e2, *]
  · intro b hb
    have : b ≠ n := by rintro rfl; exact h2 hb
    have : b ≠ x := by
      rintro rfl
      have := List.mem_of_mem_tail hb
      simp at this hx; tauto
    simp [list_add_tail, Heap.setNext, Heap.setPrev, e2, *]
  · simp [list_add_tail, Heap.setNext, Heap.setPrev, e2, hxp.symm]
  · simp [list_add_tail, Heap.setNext, Heap.setPrev, e2, hxn]
  · simp [list_add_tail, Heap.setNext, Heap.setPrev, e2]
  · simp [list_add_tail, Heap.setNext, Heap.setPrev, e2]
  · intro a ha
    have : a ≠ p := by rintro rfl; exact h3 ha
    have : a ≠ x := by
      rintro rfl
      have := List.mem_of_mem_dropLast ha
      simp at this hx; tauto
    simp [list_add_tail, Heap.setNext, Heap.setPrev, e2, *]
  · intro b hb
    have : b ≠ n := by rintro rfl; exact h4 hb
    have : b ≠ x := by rintro rfl; simp at hx; tauto
    simp [list_add_tail, Heap.setNext, Heap.setPrev, e2, *]

theorem IsQueue.add_tail {m : Heap} {h x : Nat} {A B : List Nat}
    (hq : IsQueue m h (A ++ B)) (hx : x ∉ h :: A ++ B) (hx0 : x ≠ 0) :
    IsQueue (list_add_tail m x (hd B h)) h (A ++ x :: B) := by
  obtain ⟨hc, hnd, hz⟩ := hq
  refine ⟨?_, ?_, ?_⟩
  · rcases List.eq_nil_or_concat A with rfl | ⟨A', p, rfl⟩ <;> rcases B with _ | ⟨n, B'⟩
    · have := chain_add_tail (U := []) (V := []) (p := h) (x := x) (n := h) (by simpa using hc)
        (by simpa using hx) (by simp) (by simp) (by simp) (by simp)
      simpa using this
    · have := chain_add_tail (U := []) (V := B' ++ [h]) (p := h) (x := x) (n := n)
        (by simpa using hc) (by simp at hx ⊢; tauto)
        (by simp) (by simp) (by
          rw [← List.cons_append, List.dropLast_concat]
          simp [List.nodup_append, List.nodup_cons] at hnd ⊢; tauto)
        (by simp [List.nodup_append, List.nodup_cons] at hnd ⊢; tauto)
      simpa using this
    · have := chain_add_tail (U := h :: A') (V := []) (p := p) (x := x) (n := h)
        (by simpa using hc) (by simp at hx ⊢; tauto)
        (by simp [List.nodup_append, List.nodup_cons] at hnd ⊢; tauto)
        (by simp [List.nodup_append, List.nodup_cons] at hnd ⊢; tauto) (by simp) (by simp)
      simpa using this
    · have := chain_add_tail (U := h :: A') (V := B' ++ [h]) (p := p) (x := x) (n := n)
        (by simpa using hc) (by simp at hx ⊢; tauto)
        (by simp [List.nodup_append, List.nodup_cons] at hnd ⊢; tauto)
        (by simp [List.nodup_append, List.nodup_cons] at hnd ⊢; tauto) (by
          rw [← List.cons_append, List.dropLast_concat]
          simp [List.nodup_append, List.nodup_cons] at hnd ⊢; tauto)
        (by simp [List.nodup_append, List.nodup_cons] at hnd ⊢; tauto)
      simpa using this
  · simp [List.nodup_append, List.nodup_cons] at hnd hx ⊢
    tauto
  · simp at hz ⊢; tauto

theorem IsQueue.add_tail_frame {m : Heap} {h x : Nat} {A B : List Nat}
    (hq : IsQueue m h (A ++ B)) :
    FrameOff m (list_add_tail m x (hd B h)) (h :: A ++ x :: B) := by
  intro y hy
  have e2 : m.prev (hd B h) = lst A h := by
    cases B with
    | nil => simpa using hq.prev_head
    | cons b B => simpa using hq.prev_mid
  have h1 : y ≠ lst A h := by
    rintro rfl; rcases lst_mem A h with e | e <;> simp [e] at hy
  have h2 : y ≠ hd B h := by
    rintro rfl; rcases hd_mem B h with e | e <;> simp [e] at hy
  have h3 : y ≠ x := by rintro rfl; simp at hy
  simp [list_add_tail, Heap.setNext, Heap.setPrev, e2, h1, h2, h3]


/-! ### Refinement of the two-way merge -/

@[simp] theorem ok_bind {α β : Type} (a : α) (f : α → Res β) :
    (Except.ok a >>= f) = f a := rfl

@[simp] theorem error_bind {α β : Type} (e : Fault) (f : α → Res β) :
    ((Except.error e : Res α) >>= f) = Except.error e := rfl

theorem lst_append_singleton (A : List Nat) (a h : Nat) : lst (A ++ [a]) h = a := by
  simp [lst]

theorem FrameOff.refl (m : Heap) (X : List Nat) : FrameOff m m X := fun _ _ => ⟨rfl, rfl⟩

theorem FrameOff.trans {m m1 m2 : Heap} {X Y Z : List Nat} (h1 : FrameOff m m1 X)
    (h2 : FrameOff m1 m2 Y) (hX : X ⊆ Z) (hY : Y ⊆ Z) : FrameOff m m2 Z := by
  intro x hx
  have a := h1 x (fun h => hx (hX h))
  have b := h2 x (fun h => hx (hY h))
  exact ⟨b.1.trans a.1, b.2.trans a.2⟩

theorem FrameOff.mono {m m1 : Heap} {X Z : List Nat} (h1 : FrameOff m m1 X)
    (hX : X ⊆ Z) : FrameOff m m1 Z := fun x hx => h1 x (fun h => hx (hX h))

theorem IsQueue.frame {m m' : Heap} {h : Nat} {L : List Nat} (hq : IsQueue m h L)
    (hs : SameLinks m m' (h :: L)) : IsQueue m' h L := by
  refine ⟨chain_frame hq.1 ?_ ?_, hq.2⟩
  · intro a ha
    have : a ∈ h :: L := by
      rwa [List.dropLast_concat] at ha
    exact (hs a this).1
  · intro b hb
    have : b ∈ h :: L := by
      simp at hb ⊢
      rcases hb with hb | hb
      · exact Or.inr hb
      · exact Or.inl hb
    exact (hs b this).2

theorem IsQueue.of_frameOff {m m' : Heap} {h : Nat} {L X : List Nat} (hq : IsQueue m h L)
    (hf : FrameOff m m' X) (hd : ∀ x ∈ h :: L, x ∉ X) : IsQueue m' h L :=
  hq.frame (fun x hx => hf x (hd x hx))

theorem IsQueue.head_ne {m : Heap} {h x : Nat} {L : List Nat} (hq : IsQueue m h L)
    (hx : x ∈ L) : x ≠ h := by
  rintro rfl
  have := hq.2.1
  simp [List.nodup_cons] at this
  exact this.1 hx

theorem q_size_loop_spec {m : Heap} {h : Nat} : ∀ (B A : List Nat) (fuel : Nat) (r : Int),
    IsQueue m h (A ++ B) → B.length + 1 ≤ fuel →
    q_size_loop fuel m h (hd B h) r = .ok (r + B.length)
  | [], A, fuel, r, _, hf => by
    obtain ⟨f, rfl⟩ : ∃ f, fuel = f + 1 := ⟨fuel - 1, by omega⟩
    simp [q_size_loop]
  | b :: B, A, fuel, r, hq, hf => by
    obtain ⟨f, rfl⟩ : ∃ f, fuel = f + 1 := ⟨fuel - 1, by omega⟩
    have hb : b ≠ h := hq.head_ne (by simp)
    have hn : m.next b = hd B h := hq.next_mid
    have ih := q_size_loop_spec B (A ++ [b]) f (r + 1) (by simpa using hq)
      (by simp at hf; omega)
    simp [q_size_loop, hb, hn, ih]
    omega

theorem q_size_spec {m : Heap} {h : Nat} {L : List Nat} {fuel : Nat}
    (hq : IsQueue m h L) (hf : L.length + 1 ≤ fuel) : q_size fuel m h = .ok (L.length : Int) := by
  have h0 : h ≠ 0 := by
    have := hq.2.2; simp at this; exact fun e => this.1 e.symm
  have hn := hq.next_head
  cases L with
  | nil => simp [q_size, h0, list_empty, hn]
  | cons b B =>
    have hb : b ≠ h := hq.head_ne (by simp)
    have := q_size_loop_spec (b :: B) [] fuel 0 (by simpa using hq) hf
    simp at hn this
    simp [q_size, h0, list_empty, hn, hb, this]

theorem merge_while_spec (comp : Heap → Nat → Nat → Bool) (dest s : Nat) (m : Heap) :
    ∀ (D P : List Nat) (fuel : Nat), IsQueue m dest (P ++ D) → D.length + 1 ≤ fuel →
    q_merge_two_queues_while fuel m comp dest s (hd D dest) =
      .ok (match D.dropWhile (fun d => !comp m s d) with
        | [] => (m, dest, false)
        | d :: _ => (list_move_tail m s d, d, true))
  | [], P, fuel, _, hf => by
    obtain ⟨f, rfl⟩ : ∃ f, fuel = f + 1 := ⟨fuel - 1, by omega⟩
    simp [q_merge_two_queues_while]
  | d :: D, P, fuel, hq, hf => by
    obtain ⟨f, rfl⟩ : ∃ f, fuel = f + 1 := ⟨fuel - 1, by omega⟩
    have hb : d ≠ dest := hq.head_ne (by simp)
    have hn : m.next d = hd D dest := hq.next_mid
    have ih := merge_while_spec comp dest s m D (P ++ [d]) f (by simpa using hq)
      (by simp at hf; omega)
    by_cases hc : comp m s d = true
    · simp [q_merge_two_queues_while, hb, hc, List.dropWhile_cons]
    · simp [q_merge_two_queues_while, hb, hc, List.dropWhile_cons, hn, ih]


theorem IsQueue.not_zero {m : Heap} {h x : Nat} {L : List Nat} (hq : IsQueue m h L)
    (hx : x ∈ h :: L) : x ≠ 0 := by
  rintro rfl; exact hq.2.2 hx

theorem merge_for_spec (comp : Heap → Nat → Nat → Bool)
    (hcomp : ∀ m m' : Heap, m'.value = m.value → comp m' = comp m) (dest src : Nat) :
    ∀ (S D P : List Nat) (fuel : Nat) (m : Heap),
      IsQueue m dest (P ++ D) → IsQueue m src S → (∀ x ∈ dest :: (P ++ D), x ∉ src :: S) →
      S.length + D.length + 1 ≤ fuel →
      ∃ m', q_merge_two_queues_for fuel m comp dest src (hd S src) (m.next (hd S src))
          (hd D dest) = .ok m' ∧
        IsQueue m' dest (P ++ mergeList (comp m) S D) ∧ IsQueue m' src [] ∧
        FrameOff m m' (dest :: (P ++ D) ++ src :: S) ∧
        m'.value = m.value ∧ m'.q = m.q ∧ m'.freed = m.freed
  | [], D, P, fuel, m, hqd, hqs, _, hf => by
    obtain ⟨f, rfl⟩ : ∃ f, fuel = f + 1 := ⟨fuel - 1, by omega⟩
    exact ⟨m, by simp [q_merge_two_queues_for], by simpa [mergeList] using hqd, hqs,
      FrameOff.refl _ _, rfl, rfl, rfl⟩
  | s :: S, D, P, fuel, m, hqd, hqs, hdisj, hf => by
    obtain ⟨f, rfl⟩ : ∃ f, fuel = f + 1 := ⟨fuel - 1, by omega⟩
    have hs : s ≠ src := hqs.head_ne (by simp)
    have hs0 : s ≠ 0 := hqs.not_zero (by simp)
    have hn : m.next s = hd S src := hqs.next_mid (A := [])
    have hw := merge_while_spec comp dest s m D P (f + 1) hqd (by simp at hf; omega)
    have hsplit := List.takeWhile_append_dropWhile (fun d => !comp m s d) D
    -- the source queue after unlinking `s`
    have hqs1 : IsQueue (list_del m s) src S := by simpa using hqs.del (A := [])
    have hfr1 : FrameOff m (list_del m s) (src :: S) := by simpa using hqs.del_frame (A := [])
    have hqd1 : IsQueue (list_del m s) dest (P ++ D) :=
      hqd.of_frameOff hfr1 (fun x hx hx' => hdisj x hx (by simp at hx' ⊢; tauto))
    generalize hD0 : D.takeWhile (fun d => !comp m s d) = D0 at hsplit
    generalize hD1 : D.dropWhile (fun d => !comp m s d) = D1 at hsplit hw
    subst hsplit
    have hsd : s ∉ dest :: (P ++ (D0 ++ D1)) := fun h => hdisj s h (by simp)
    have hnd := hqs.2.1
    -- linking `s` in front of the cursor
    have hqd2 : IsQueue (list_add_tail (list_del m s) s (hd D1 dest)) dest
        ((P ++ D0) ++ s :: D1) :=
      IsQueue.add_tail (A := P ++ D0) (B := D1) (by simpa using hqd1) (by simpa using hsd) hs0
    have hfr2 : FrameOff (list_del m s) (list_add_tail (list_del m s) s (hd D1 dest))
        (dest :: (P ++ D0) ++ s :: D1) :=
      IsQueue.add_tail_frame (A := P ++ D0) (B := D1) (by simpa using hqd1)
    have hqs2 : IsQueue (list_add_tail (list_del m s) s (hd D1 dest)) src S := by
      refine hqs1.of_frameOff hfr2 ?_
      intro x hx hx'
      have h1 : x ≠ s := by
        rintro rfl
        simp [List.nodup_cons] at hnd hx; tauto
      have h2 := fun h => hdisj x h (by simp at hx ⊢; tauto)
      simp at hx' h2; tauto
    have ih := merge_for_spec comp hcomp dest src S D1 (P ++ D0 ++ [s]) f
      (list_add_tail (list_del m s) s (hd D1 dest)) (by simpa using hqd2) hqs2
      (by
        intro x hx hx'
        have h1 : x ≠ s := by
          rintro rfl
          simp [List.nodup_cons] at hnd hx'; tauto
        have h2 := fun h => hdisj x h (by simp at hx' ⊢; tauto)
        simp at hx h2; tauto)
      (by simp at hf ⊢; omega)
    obtain ⟨m', hrun, hd', hs', hfr', hv, hq, hfreed⟩ := ih
    have hcm : comp (list_add_tail (list_del m s) s (hd D1 dest)) = comp m := hcomp _ _ rfl
    refine ⟨m', ?_, ?_, hs', ?_, by simpa using hv, by simpa using hq, by simpa using hfreed⟩
    · rw [q_merge_two_queues_for]
      simp only [hd_cons, hs, if_false, hw, hn]
      cases D1 with
      | nil =>
        have e1 : (list_move_tail m s dest).prev dest = s := by
          have := hqd2.prev_head
          rw [lst_append_singleton] at this
          simpa [list_move_tail] using this
        have e2 : (list_move_tail m s dest).next s = dest := by
          have := hqd2.next_mid
          simpa [list_move_tail] using this
        simp [e1, e2]
        simpa [list_move_tail] using hrun
      | cons d D1' =>
        simp
        simpa [list_move_tail] using hrun
    · rw [hcm] at hd'
      simpa [mergeList, hD0, hD1] using hd'
    · refine (hfr1.trans hfr2 (Z := dest :: (P ++ (D0 ++ D1)) ++ src :: s :: S) ?_ ?_).trans
        hfr' ?_ ?_ <;> intro x hx <;> simp at hx ⊢ <;> tauto


theorem ele_compare_less_congr (m m' : Heap) (h : m'.value = m.value) :
    ele_compare_less m' = ele_compare_less m := by
  funext a b; simp [ele_compare_less, ele_compare, h]

theorem ele_compare_greater_congr (m m' : Heap) (h : m'.value = m.value) :
    ele_compare_greater m' = ele_compare_greater m := by
  funext a b; simp [ele_compare_greater, ele_compare, h]

theorem Sorted.congr {m m' : Heap} {d : Bool} {L : List Nat} (h : m'.value = m.value)
    (hs : Sorted m d L) : Sorted m' d L := by
  simpa [Sorted, ele_compare, h] using hs

/-- The comparator selected by `q_merge_two_queues`. -/
theorem mergeList_sorted (m : Heap) (is_descend : Bool) (S D : List Nat)
    (hS : Sorted m is_descend S) (hD : Sorted m is_descend D) :
    Sorted m is_descend
      (mergeList ((if is_descend then ele_compare_greater else ele_compare_less) m) S D) := by
  unfold Sorted at *
  apply mergeList_pairwise _ _ _ _ _ S D hS hD
  · intro s d
    have := strcmp_antisymm (m.value s) (m.value d)
    cases is_descend <;> simp [ele_compare_less, ele_compare_greater, ele_compare] <;> omega
  · intro a b
    have := strcmp_antisymm (m.value a) (m.value b)
    cases is_descend <;> simp [ele_compare] <;> omega
  · intro a b c
    have h1 := strcmp_trans (m.value a) (m.value b) (m.value c)
    have h2 := strcmp_trans (m.value c) (m.value b) (m.value a)
    have := strcmp_antisymm (m.value a) (m.value b)
    have := strcmp_antisymm (m.value b) (m.value c)
    have := strcmp_antisymm (m.value a) (m.value c)
    cases is_descend <;> simp [ele_compare] <;> omega

theorem q_merge_two_queues_spec (m : Heap) (dest src : Nat) (D S : List Nat)
    (is_descend : Bool) (fuel : Nat)
    (hqd : IsQueue m dest D) (hs : IsQueue m src S) (hdisj : ∀ x ∈ dest :: D, x ∉ src :: S)
    (hfuel : D.length + S.length + 1 ≤ fuel) :
    ∃ m', q_merge_two_queues fuel m dest src is_descend =
        .ok (m', (D.length : Int) + (S.length : Int)) ∧
      IsQueue m' dest
        (mergeList ((if is_descend then ele_compare_greater else ele_compare_less) m) S D) ∧
      IsQueue m' src [] ∧ FrameOff m m' (dest :: D ++ src :: S) ∧
      m'.value = m.value ∧ m'.q = m.q ∧ m'.freed = m.freed := by
  have hsz1 : q_size fuel m dest = .ok (D.length : Int) := q_size_spec hqd (by omega)
  have hsz2 : q_size fuel m src = .ok (S.length : Int) := q_size_spec hs (by omega)
  have hd0 : dest ≠ 0 := hqd.not_zero (by simp)
  have hs0 : src ≠ 0 := hs.not_zero (by simp)
  have hcomp : ∀ m m' : Heap, m'.value = m.value →
      (if is_descend then ele_compare_greater else ele_compare_less) m' =
      (if is_descend then ele_compare_greater else ele_compare_less) m := by
    intro m m' h
    cases is_descend
    · simpa using ele_compare_less_congr m m' h
    · simpa using ele_compare_greater_congr m m' h
  obtain ⟨m', hrun, h1, h2, h3, h4, h5, h6⟩ :=
    merge_for_spec _ hcomp dest src S D [] fuel m (by simpa using hqd) hs
      (by simpa using hdisj) (by omega)
  refine ⟨m', ?_, by simpa using h1, h2, by simpa using h3, h4, h5, h6⟩
  have e1 := hs.next_head
  have e2 := hqd.next_head
  simp [q_merge_two_queues, hsz1, hsz2, hd0, hs0, e1, e2, hrun]


/-! ### C1: two-way merge -/

/-- C1: for two present queues with no node in common, both sorted according to
`is_descend`, `q_merge_two_queues` returns the sum of the two sizes, leaves `dest` a
well-formed queue that is sorted according to `is_descend`, holds exactly the nodes of both
inputs (values untouched) and has that size, and leaves `src` empty. -/
theorem q_merge_two_queues_correct (m : Heap) (dest src : Nat) (D S : List Nat)
    (is_descend : Bool) (fuel : Nat)
    (hqd : IsQueue m dest D) (hqs : IsQueue m src S) (hdisj : ∀ x ∈ dest :: D, x ∉ src :: S)
    (hDs : Sorted m is_descend D) (hSs : Sorted m is_descend S)
    (hfuel : D.length + S.length + 1 ≤ fuel) :
    ∃ m' R, q_merge_two_queues fuel m dest src is_descend =
        .ok (m', (D.length : Int) + (S.length : Int)) ∧
      IsQueue m' dest R ∧ Sorted m' is_descend R ∧ R.Perm (D ++ S) ∧ m'.value = m.value ∧
      IsQueue m' src [] ∧ q_size fuel m' dest = .ok ((D.length : Int) + (S.length : Int)) := by
  obtain ⟨m', hrun, h1, h2, -, h4, -, -⟩ :=
    q_merge_two_queues_spec m dest src D S is_descend fuel hqd hqs hdisj hfuel
  have hperm := mergeList_perm ((if is_descend then ele_compare_greater else ele_compare_less) m)
    S D
  refine ⟨m', _, hrun, h1, (mergeList_sorted m is_descend S D hSs hDs).congr h4, hperm, h4, h2,
    ?_⟩
  have hlen := hperm.length_eq
  rw [q_size_spec h1 (by rw [hlen]; simpa using hfuel), hlen]
  simp

theorem q_merge_two_queues_correct_witness :
    ∃ m' R, q_merge_two_queues 5 exMerge 1 5 false = .ok (m', (2 : Int) + (2 : Int)) ∧
      IsQueue m' 1 R ∧ Sorted m' false R ∧ R.Perm ([2, 3] ++ [6, 7]) ∧
      m'.value = exMerge.value ∧ IsQueue m' 5 [] ∧
      q_size 5 m' 1 = .ok ((2 : Int) + (2 : Int)) :=
  q_merge_two_queues_correct exMerge 1 5 [2, 3] [6, 7] false 5 (by decide) (by decide)
    (by decide) (by decide) (by decide) (by decide)


/-! ### Cutting a queue in two -/

theorem chain_cycle {R : Nat → Nat → Prop} (h : Nat) (X : List Nat) :
    List.Chain' R (h :: X ++ [h]) ↔ List.Chain' R X ∧ R h (hd X h) ∧ R (lst X h) h := by
  rcases List.eq_nil_or_concat X with rfl | ⟨X', p, rfl⟩
  · simp
  · cases X' with
    | nil => simp [List.chain'_cons, lst]
    | cons a X'' =>
      have e1 : h :: (a :: X'').concat p ++ [h] = (h :: a :: X'') ++ [p, h] := by simp
      have e2 : (a :: X'').concat p = (a :: X'') ++ [p] := by simp
      have e3 : lst (a :: X'' ++ [p]) h = p := lst_append_singleton _ _ _
      rw [e1, e2, e3, List.chain'_split, List.chain'_cons]
      simp only [List.cons_append, hd_cons, List.chain'_cons]
      constructor
      · rintro ⟨⟨h1, h2⟩, h3, -⟩
        exact ⟨h2, h1, h3⟩
      · rintro ⟨h2, h1, h3⟩
        exact ⟨⟨h1, h2⟩, h3, List.chain'_singleton _⟩

theorem chain_append_iff {R : Nat → Nat → Prop} (X Y : List Nat) :
    List.Chain' R (X ++ Y) ↔
      List.Chain' R X ∧ List.Chain' R Y ∧ (X ≠ [] → Y ≠ [] → R (lst X 0) (hd Y 0)) := by
  rw [List.chain'_append]
  rcases List.eq_nil_or_concat X with rfl | ⟨X', p, rfl⟩
  · simp
  · cases Y with
    | nil => simp
    | cons y Y' => simp [lst]


theorem ne_lst_of_mem_dropLast {A : List Nat} (hA : A.Nodup) {a : Nat} (ha : a ∈ A.dropLast)
    (h : Nat) : a ≠ lst A h := by
  rcases List.eq_nil_or_concat A with rfl | ⟨A', p, rfl⟩
  · simp at ha
  · simp [List.nodup_append] at hA ha ⊢
    rintro rfl; exact hA.2 ha

theorem ne_hd_of_mem_tail {A : List Nat} (hA : A.Nodup) {a : Nat} (ha : a ∈ A.tail)
    (h : Nat) : a ≠ hd A h := by
  cases A with
  | nil => simp at ha
  | cons b A' =>
    simp at hA ha ⊢
    rintro rfl; exact hA.1 ha

theorem hd_mem_of_ne_nil {A : List Nat} (hA : A ≠ []) (h : Nat) : hd A h ∈ A := by
  cases A with
  | nil => exact absurd rfl hA
  | cons b A' => simp

theorem lst_mem_of_ne_nil {A : List Nat} (hA : A ≠ []) (h : Nat) : lst A h ∈ A := by
  rcases List.eq_nil_or_concat A with rfl | ⟨A', p, rfl⟩
  · exact absurd rfl hA
  · simp [lst]

theorem hd_append_of_ne_nil {A : List Nat} (hA : A ≠ []) (B : List Nat) (h : Nat) :
    hd (A ++ B) h = hd A h := by
  cases A with
  | nil => exact absurd rfl hA
  | cons b A' => simp

theorem hd_eq_of_ne_nil {A : List Nat} (hA : A ≠ []) (h h' : Nat) : hd A h = hd A h' := by
  cases A with
  | nil => exact absurd rfl hA
  | cons b A' => simp

theorem lst_eq_of_ne_nil {A : List Nat} (hA : A ≠ []) (h h' : Nat) : lst A h = lst A h' := by
  rcases List.eq_nil_or_concat A with rfl | ⟨A', p, rfl⟩
  · exact absurd rfl hA
  · simp [lst]

theorem lst_append_of_ne_nil (A : List Nat) {B : List Nat} (hB : B ≠ []) (h : Nat) :
    lst (A ++ B) h = lst B h := by
  rcases List.eq_nil_or_concat B with rfl | ⟨B', p, rfl⟩
  · exact absurd rfl hB
  · simp [lst, ← List.append_assoc]

theorem cut_spec {m : Heap} {head dst : Nat} {A B : List Nat}
    (hq : IsQueue m head (A ++ B)) (hA : A ≠ []) (hto : dst ∉ head :: (A ++ B)) (hto0 : dst ≠ 0) :
    IsQueue (list_cut_position m dst head (lst A head)) head B ∧
    IsQueue (list_cut_position m dst head (lst A head)) dst A ∧
    FrameOff m (list_cut_position m dst head (lst A head)) (dst :: head :: (A ++ B)) := by
  obtain ⟨hc, hnd, hz⟩ := hq
  have hq : IsQueue m head (A ++ B) := ⟨hc, hnd, hz⟩
  rw [chain_cycle, chain_append_iff] at hc
  obtain ⟨⟨hcA, hcB, hAB⟩, hfirst, hlast⟩ := hc
  have hndA : A.Nodup := by simp [List.nodup_append, List.nodup_cons] at hnd; tauto
  have hndB : B.Nodup := by simp [List.nodup_append, List.nodup_cons] at hnd; tauto
  have ha0 : hd A head ∈ A := hd_mem_of_ne_nil hA head
  have hal : lst A head ∈ A := lst_mem_of_ne_nil hA head
  have hb0 := hd_mem B head
  have hbl := lst_mem B head
  have e1 : m.next head = hd A head := by rw [hq.next_head, hd_append_of_ne_nil hA]
  have e2 : m.next (lst A head) = hd B head := by
    obtain ⟨A', p, rfl⟩ : ∃ A' p, A = A' ++ [p] := by
      rcases List.eq_nil_or_concat A with rfl | ⟨A', p, rfl⟩
      · exact absurd rfl hA
      · exact ⟨A', p, by simp⟩
    rw [lst_append_singleton]
    exact IsQueue.next_mid (A := A') (by simpa using hq)
  have hne : lst A head ≠ head := by
    rintro e; rw [e] at hal; simp [List.nodup_append, List.nodup_cons] at hnd; tauto
  have hemp : list_empty m head = false := by
    simp [list_empty, e1]
    rintro e; rw [e] at ha0; simp [List.nodup_append, List.nodup_cons] at hnd; tauto
  have hnext : ∀ x, (list_cut_position m dst head (lst A head)).next x =
      if x = dst then hd A head else if x = lst A head then dst
      else if x = head then hd B head else m.next x := by
    intro x
    simp [list_cut_position, hemp, hne.symm, Heap.setNext, Heap.setPrev, e1, e2]
  have hprev : ∀ x, (list_cut_position m dst head (lst A head)).prev x =
      if x = hd A head then dst else if x = dst then lst A head
      else if x = hd B head then head else m.prev x := by
    intro x
    have : dst ≠ lst A head := by rintro rfl; simp at hto; tauto
    have : dst ≠ head := by rintro rfl; simp at hto
    simp [list_cut_position, hemp, hne.symm, Heap.setNext, Heap.setPrev, e1, e2, *]
  have hhA : head ∉ A := by simp [List.nodup_append, List.nodup_cons] at hnd; tauto
  have hhB : head ∉ B := by simp [List.nodup_append, List.nodup_cons] at hnd; tauto
  have hdA : dst ∉ A := by simp at hto; tauto
  have hdB : dst ∉ B := by simp at hto; tauto
  have hdh : dst ≠ head := by simp at hto; tauto
  have hABd : ∀ a ∈ A, a ∉ B := by
    intro a ha hb
    simp [List.nodup_append, List.nodup_cons] at hnd
    exact hnd.2.2.2 ha hb
  have n1 : ∀ a ∈ A, a ≠ hd B head := by
    intro a ha e; rcases hb0 with e' | e'
    · exact hhA (by rw [← e', ← e]; exact ha)
    · exact hABd a ha (by rw [e]; exact e')
  have n2 : dst ≠ hd B head := by
    intro e; rcases hb0 with e' | e'
    · exact hdh (e.trans e')
    · exact hdB (by rw [e]; exact e')
  have n3 : ∀ b ∈ B, b ≠ hd A head := fun b hb e => hABd _ ha0 (by rw [← e]; exact hb)
  have n4 : ∀ b ∈ B, b ≠ lst A head := fun b hb e => hABd _ hal (by rw [← e]; exact hb)
  have n5 : ∀ a ∈ A, a ≠ dst := fun a ha e => hdA (by rw [← e]; exact ha)
  have n6 : ∀ b ∈ B, b ≠ dst := fun b hb e => hdB (by rw [← e]; exact hb)
  have n7 : ∀ a ∈ A, a ≠ head := fun a ha e => hhA (by rw [← e]; exact ha)
  have n8 : ∀ b ∈ B, b ≠ head := fun b hb e => hhB (by rw [← e]; exact hb)
  refine ⟨⟨?_, ?_, ?_⟩, ⟨?_, ?_, ?_⟩, ?_⟩
  · rw [chain_cycle]
    refine ⟨chain_frame hcB ?_ ?_, ⟨?_, ?_⟩, ⟨?_, ?_⟩⟩
    · intro a ha
      have hm := List.mem_of_mem_dropLast ha
      rw [hnext, if_neg (n6 a hm), if_neg (n4 a hm), if_neg (n8 a hm)]
    · intro b hb
      have hm := List.mem_of_mem_tail hb
      rw [hprev, if_neg (n3 b hm), if_neg (n6 b hm), if_neg (ne_hd_of_mem_tail hndB hb head)]
    · rw [hnext, if_neg hdh.symm, if_neg hne.symm, if_pos rfl]
    · rw [hprev, if_neg (n1 _ ha0).symm, if_neg n2.symm, if_pos rfl]
    · by_cases hB : B = []
      · subst hB
        simp only [lst_nil, hd_nil]
        rw [hnext, if_neg hdh.symm, if_neg hne.symm, if_pos rfl]; rfl
      · have hm := lst_mem_of_ne_nil hB head
        rw [hnext, if_neg (n6 _ hm), if_neg (n4 _ hm), if_neg (n8 _ hm)]
        rw [lst_append_of_ne_nil A hB] at hlast
        exact hlast.1
    · by_cases hB : B = []
      · subst hB
        simp only [lst_nil, hd_nil]
        rw [hprev, if_neg (n7 _ ha0).symm, if_neg hdh.symm, if_pos]
        rfl
      · have hm := hd_mem_of_ne_nil hB head
        rw [hprev, if_neg (n7 _ ha0).symm, if_neg hdh.symm, if_neg (n8 _ hm).symm]
        rw [lst_append_of_ne_nil A hB] at hlast
        exact hlast.2
  · exact List.nodup_cons.2 ⟨hhB, hndB⟩
  · intro h0
    rcases List.mem_cons.1 h0 with e | e
    · exact hz (by simp [e])
    · exact hz (by simp [e])
  · rw [chain_cycle]
    refine ⟨chain_frame hcA ?_ ?_, ⟨?_, ?_⟩, ⟨?_, ?_⟩⟩
    · intro a ha
      have hm := List.mem_of_mem_dropLast ha
      rw [hnext, if_neg (n5 a hm), if_neg (ne_lst_of_mem_dropLast hndA ha head),
        if_neg (n7 a hm)]
    · intro b hb
      have hm := List.mem_of_mem_tail hb
      rw [hprev, if_neg (ne_hd_of_mem_tail hndA hb head), if_neg (n5 b hm), if_neg (n1 b hm)]
    · rw [hnext, if_pos rfl]; exact hd_eq_of_ne_nil hA _ _
    · rw [hd_eq_of_ne_nil hA dst head, hprev, if_pos rfl]
    · rw [lst_eq_of_ne_nil hA dst head, hnext, if_neg (n5 _ hal), if_pos rfl]
    · rw [lst_eq_of_ne_nil hA dst head, hprev, if_neg (n5 _ ha0).symm, if_pos rfl]
  · exact List.nodup_cons.2 ⟨hdA, hndA⟩
  · intro h0
    rcases List.mem_cons.1 h0 with e | e
    · exact hto0 e.symm
    · exact hz (by simp [e])
  · intro x hx
    simp at hx
    have x1 : x ≠ dst := by tauto
    have x2 : x ≠ head := by tauto
    have x3 : x ≠ lst A head := by rintro rfl; tauto
    have x4 : x ≠ hd A head := by rintro rfl; tauto
    have x5 : x ≠ hd B head := by
      rintro rfl; rcases hb0 with e | e
      · exact x2 e
      · tauto
    constructor
    · rw [hnext x, if_neg x1, if_neg x3, if_neg x2]
    · rw [hprev x, if_neg x4, if_neg x1, if_neg x5]

@[simp] theorem list_cut_position_value (m : Heap) (a b c : Nat) :
    (list_cut_position m a b c).value = m.value := by
  unfold list_cut_position; split_ifs <;> rfl

@[simp] theorem list_cut_position_q (m : Heap) (a b c : Nat) :
    (list_cut_position m a b c).q = m.q := by
  unfold list_cut_position; split_ifs <;> rfl

@[simp] theorem list_cut_position_freed (m : Heap) (a b c : Nat) :
    (list_cut_position m a b c).freed = m.freed := by
  unfold list_cut_position; split_ifs <;> rfl


/-! ### Refinement of the recursive sort -/

theorem IsQueue.next_lst {m : Heap} {h : Nat} {A B : List Nat} (hq : IsQueue m h (A ++ B)) :
    m.next (lst A h) = hd B h := by
  rcases List.eq_nil_or_concat A with rfl | ⟨A', p, rfl⟩
  · simpa using hq.next_head
  · have : lst (A'.concat p) h = p := by simp [lst]
    rw [this]
    exact IsQueue.next_mid (A := A') (by simpa using hq)

theorem IsQueue.next_hd {m : Heap} {h : Nat} {A B : List Nat} (hq : IsQueue m h (A ++ B))
    (hB : B ≠ []) : m.next (hd B h) = hd B.tail h := by
  cases B with
  | nil => exact absurd rfl hB
  | cons b B' => exact hq.next_mid

theorem hd_drop_ne {m : Heap} {h : Nat} {L : List Nat} (hq : IsQueue m h L) {j : Nat}
    (hj : j < L.length) : hd (L.drop j) h ≠ h := by
  have hne : L.drop j ≠ [] := by simp; omega
  have := hd_mem_of_ne_nil hne h
  exact hq.head_ne (List.mem_of_mem_drop this)

theorem hd_drop_eq {h : Nat} {L : List Nat} {j : Nat} (hj : L.length ≤ j) :
    hd (L.drop j) h = h := by
  rw [List.drop_of_length_le hj]; rfl

theorem lst_take_succ {h : Nat} {L : List Nat} {j : Nat} (hj : j < L.length) :
    lst (L.take (j + 1)) h = hd (L.drop j) h := by
  rw [List.take_succ, List.drop_eq_getElem_cons hj, List.getElem?_eq_getElem hj]
  simp only [Option.toList_some, lst_append_singleton, hd_cons]

theorem q_sort_walk_spec {m : Heap} {h : Nat} {L : List Nat} (hq : IsQueue m h L) :
    ∀ (fuel i : Nat), 2 * i ≤ L.length → L.length / 2 - i + 1 ≤ fuel →
      q_sort_walk fuel m h (hd (L.drop (2 * i)) h) (lst (L.take i) h) =
        .ok (lst (L.take (L.length / 2)) h)
  | 0, _, _, hf => by omega
  | f + 1, i, hi, hf => by
    rw [q_sort_walk]
    by_cases h1 : 2 * i + 1 < L.length
    · have e1 : hd (L.drop (2 * i)) h ≠ h := hd_drop_ne hq (by omega)
      have e2 : m.next (hd (L.drop (2 * i)) h) = hd (L.drop (2 * i + 1)) h := by
        have := IsQueue.next_hd (A := L.take (2 * i)) (B := L.drop (2 * i))
          (by simpa using hq) (by simp; omega)
        simpa using this
      have e3 : hd (L.drop (2 * i + 1)) h ≠ h := hd_drop_ne hq (by omega)
      have e4 : m.next (hd (L.drop (2 * i + 1)) h) = hd (L.drop (2 * (i + 1))) h := by
        have := IsQueue.next_hd (A := L.take (2 * i + 1)) (B := L.drop (2 * i + 1))
          (by simpa using hq) (by simp; omega)
        simpa using this
      have e5 : m.next (lst (L.take i) h) = lst (L.take (i + 1)) h := by
        rw [lst_take_succ (by omega)]
        exact IsQueue.next_lst (by simpa using hq)
      have ih := q_sort_walk_spec hq f (i + 1) (by omega) (by omega)
      simp [e1, e2, e3, e4, e5, ih]
    · have hk : L.length / 2 = i := by omega
      by_cases h2 : 2 * i < L.length
      · have e1 : hd (L.drop (2 * i)) h ≠ h := hd_drop_ne hq (by omega)
        have e2 : m.next (hd (L.drop (2 * i)) h) = hd (L.drop (2 * i + 1)) h := by
          have := IsQueue.next_hd (A := L.take (2 * i)) (B := L.drop (2 * i))
            (by simpa using hq) (by simp; omega)
          simpa using this
        have e3 : hd (L.drop (2 * i + 1)) h = h := hd_drop_eq (by omega)
        simp [e1, e2, e3, hk]
      · have e1 : hd (L.drop (2 * i)) h = h := hd_drop_eq (by omega)
        simp [e1, hk]


theorem IsQueue.empty_iff {m : Heap} {h : Nat} {L : List Nat} (hq : IsQueue m h L) :
    list_empty m h = true ↔ L = [] := by
  cases L with
  | nil => simpa [list_empty] using hq.next_head
  | cons a L' =>
    have := hq.next_head
    have hne : a ≠ h := hq.head_ne (by simp)
    simp [list_empty, this, hne]

theorem IsQueue.singular_iff {m : Heap} {h : Nat} {L : List Nat} (hq : IsQueue m h L) :
    list_is_singular m h = true ↔ L.length = 1 := by
  have e1 := hq.next_head
  have e2 := hq.prev_head
  rcases List.eq_nil_or_concat L with rfl | ⟨L', p, rfl⟩
  · simp [list_is_singular, list_empty, e1]
  · cases L' with
    | nil =>
      have hne : p ≠ h := hq.head_ne (by simp)
      simp [lst] at e1 e2
      simp [list_is_singular, list_empty, e1, e2, hne]
    | cons a L'' =>
      have hne : a ≠ h := hq.head_ne (by simp)
      have hnd := hq.2.1
      have hpa : p ≠ a := by
        rintro rfl
        simp [List.nodup_cons, List.nodup_append] at hnd
      have e3 : lst ((a :: L'').concat p) h = p := by
        rw [List.concat_eq_append]; exact lst_append_singleton _ _ _
      rw [e3] at e2
      simp at e1
      simp [list_is_singular, list_empty, e1, e2, hne, hpa]

theorem q_sort_spec (descend : Bool) :
    ∀ (fuel : Nat) (m : Heap) (head : Nat) (L : List Nat) (frame : Nat),
      IsQueue m head L → (∀ x ∈ head :: L, x < frame) → L.length + 1 ≤ fuel →
      ∃ m' R, q_sort fuel m head descend frame = .ok m' ∧ IsQueue m' head R ∧
        Sorted m' descend R ∧ R.Perm L ∧ m'.value = m.value ∧
        (∀ x, x ∉ head :: L → x < frame → m'.next x = m.next x ∧ m'.prev x = m.prev x) ∧
        (L.length ≤ 1 → m' = m)
  | 0, _, _, _, _, _, _, hf => by omega
  | f + 1, m, head, L, frame, hq, hlt, hf => by
    have h0 : head ≠ 0 := hq.not_zero (by simp)
    by_cases hlen : L.length ≤ 1
    · have hstop : (list_empty m head || list_is_singular m head) = true := by
        rcases Nat.lt_or_ge L.length 1 with h1 | h1
        · have : L = [] := by
            cases L with
            | nil => rfl
            | cons a L' => simp at h1
          simp [hq.empty_iff.2 this]
        · have : list_is_singular m head = true := hq.singular_iff.2 (by omega)
          simp [this]
      refine ⟨m, L, ?_, hq, ?_, List.Perm.refl _, rfl, fun _ _ _ => ⟨rfl, rfl⟩, fun _ => rfl⟩
      · rw [q_sort]
        simp only [Bool.or_eq_true] at hstop
        simp [h0, hstop]
      · unfold Sorted
        match L, hlen with
        | [], _ => simp
        | [a], _ => simp
    · have hne : L ≠ [] := by rintro rfl; simp at hlen
      have hemp : list_empty m head = false := by
        rw [Bool.eq_false_iff]; exact fun h => hne (hq.empty_iff.1 h)
      have hsing : list_is_singular m head = false := by
        rw [Bool.eq_false_iff]; exact fun h => hlen (by rw [hq.singular_iff.1 h])
      have hwalk := q_sort_walk_spec hq (f + 1) 0 (by omega) (by omega)
      simp only [Nat.mul_zero, List.drop_zero, List.take_zero, lst_nil] at hwalk
      rw [← hq.next_head] at hwalk
      have hsplit : L.take (L.length / 2) ++ L.drop (L.length / 2) = L := List.take_append_drop _ _
      generalize hA : L.take (L.length / 2) = A at hsplit hwalk
      generalize hB : L.drop (L.length / 2) = B at hsplit
      have hAlen : A.length = L.length / 2 := by rw [← hA]; simp; omega
      have hBlen : B.length = L.length - L.length / 2 := by rw [← hB]; simp
      have hAne : A ≠ [] := by rintro rfl; simp at hAlen; omega
      subst hsplit
      have hfr : frame ∉ head :: (A ++ B) := fun h => Nat.lt_irrefl _ (hlt _ h)
      have hfr0 : frame ≠ 0 := by have := hlt head (by simp); omega
      obtain ⟨hc1, hc2, hc3⟩ := cut_spec hq hAne hfr hfr0
      generalize hm1 : list_cut_position m frame head (lst A head) = m1 at hc1 hc2 hc3
      have hv1 : m1.value = m.value := by rw [← hm1]; simp
      have hnd := hq.2.1
      -- sort the part that stays in `head`
      obtain ⟨m2, R2, hrun2, hq2, hs2, hp2, hv2, hf2, -⟩ :=
        q_sort_spec descend f m1 head B (frame + 1) hc1
          (fun x hx => Nat.lt_succ_of_lt (hlt x (by simp at hx ⊢; tauto)))
          (by simp at hf; omega)
      have hc2' : IsQueue m2 frame A := by
        refine hc2.frame (fun x hx => hf2 x ?_ ?_)
        · intro hx'
          rcases List.mem_cons.1 hx with e | e
          · exact hfr (by rw [← e]; simp at hx' ⊢; tauto)
          · simp [List.nodup_cons, List.nodup_append] at hnd hx'
            rcases hx' with e' | e'
            · rw [e'] at e; exact hnd.1.1 e
            · exact hnd.2.2.2 e e'
        · rcases List.mem_cons.1 hx with e | e
          · omega
          · exact Nat.lt_succ_of_lt (hlt x (by simp; tauto))
      -- sort the part that was cut into `right`
      obtain ⟨m3, R1, hrun3, hq3, hs3, hp3, hv3, hf3, -⟩ :=
        q_sort_spec descend f m2 frame A (frame + 1) hc2'
          (fun x hx => by
            rcases List.mem_cons.1 hx with e | e
            · omega
            · exact Nat.lt_succ_of_lt (hlt x (by simp; tauto)))
          (by simp at hf; omega)
      have hmemB : ∀ x, x ∈ head :: R2 → x ∈ head :: B := by
        intro x hx
        rcases List.mem_cons.1 hx with e | e
        · simp [e]
        · exact List.mem_cons_of_mem _ (hp2.subset e)
      have hmemA : ∀ x, x ∈ frame :: R1 → x ∈ frame :: A := by
        intro x hx
        rcases List.mem_cons.1 hx with e | e
        · simp [e]
        · exact List.mem_cons_of_mem _ (hp3.subset e)
      have hdisjAB : ∀ x, x ∈ head :: B → x ∉ frame :: A := by
        intro x hx hx'
        have hxlt : x < frame := hlt x (by simp at hx ⊢; tauto)
        rcases List.mem_cons.1 hx' with e | e
        · omega
        · simp [List.nodup_cons, List.nodup_append] at hnd hx
          rcases hx with e' | e'
          · rw [e'] at e; exact hnd.1.1 e
          · exact hnd.2.2.2 e e'
      have hq2' : IsQueue m3 head R2 :=
        hq2.frame (fun x hx => hf3 x (hdisjAB x (hmemB x hx))
          (Nat.lt_succ_of_lt (hlt x (by have := hmemB x hx; simp at this ⊢; tauto))))
      -- merge
      obtain ⟨m4, hrun4, hq4, -, hf4, hv4, -, -⟩ :=
        q_merge_two_queues_spec m3 head frame R2 R1 descend (f + 1) hq2' hq3
          (fun x hx hx' => hdisjAB x (hmemB x hx) (hmemA x hx'))
          (by rw [hp2.length_eq, hp3.length_eq]; simp at hf; omega)
      have hperm := mergeList_perm
        ((if descend then ele_compare_greater else ele_compare_less) m3) R1 R2
      refine ⟨m4, _, ?_, hq4, ?_, ?_, ?_, ?_, fun h => absurd h hlen⟩
      · rw [q_sort]
        simp [h0, hemp, hsing, hwalk, hm1, hrun2, hrun3, hrun4]
      · exact (mergeList_sorted m3 descend R1 R2 hs3 (hs2.congr hv3)).congr hv4
      · exact hperm.trans ((hp2.append hp3).trans List.perm_append_comm)
      · rw [hv4, hv3, hv2, hv1]
      · intro x hx hxlt
        have a1 := hc3 x (by
          intro h; rcases List.mem_cons.1 h with e | e
          · omega
          · exact hx e)
        have a2 := hf2 x (fun h => hx (by simp at h ⊢; tauto)) (Nat.lt_succ_of_lt hxlt)
        have a3 := hf3 x (by
          intro h; rcases List.mem_cons.1 h with e | e
          · omega
          · exact hx (by simp; tauto)) (Nat.lt_succ_of_lt hxlt)
        have a4 := hf4 x (by
          intro h
          rcases List.mem_append.1 h with e | e
          · exact hx (by have := hmemB x e; simp at this ⊢; tauto)
          · rcases List.mem_cons.1 (hmemA x e) with e' | e'
            · omega
            · exact hx (by simp; tauto))
        exact ⟨a4.1.trans (a3.1.trans (a2.1.trans a1.1)),
          a4.2.trans (a3.2.trans (a2.2.trans a1.2))⟩

theorem q_sort_null (m : Heap) (descend : Bool) (frame fuel : Nat) :
    q_sort (fuel + 1) m 0 descend frame = .ok m := by
  simp [q_sort]

/-! ### C2, C3: sort -/

/-- C2: for every present queue (and any frame address beyond its nodes) `q_sort` returns,
leaving the queue well-formed, sorted by `strcmp` order according to `descend`, and holding a
permutation of the input nodes with their values untouched; a queue of at most one element is
left exactly as it was. -/
theorem q_sort_correct (m : Heap) (head : Nat) (L : List Nat) (descend : Bool)
    (frame fuel : Nat) (hq : IsQueue m head L) (hframe : ∀ x ∈ head :: L, x < frame)
    (hfuel : L.length + 1 ≤ fuel) :
    ∃ m' R, q_sort fuel m head descend frame = .ok m' ∧ IsQueue m' head R ∧
      Sorted m' descend R ∧ R.Perm L ∧ m'.value = m.value ∧ (L.length ≤ 1 → m' = m) := by
  obtain ⟨m', R, h1, h2, h3, h4, h5, -, h7⟩ :=
    q_sort_spec descend fuel m head L frame hq hframe hfuel
  exact ⟨m', R, h1, h2, h3, h4, h5, h7⟩

theorem q_sort_correct_witness :
    ∃ m' R, q_sort 4 exSort 1 false 10 = .ok m' ∧ IsQueue m' 1 R ∧
      Sorted m' false R ∧ R.Perm [2, 3, 4] ∧ m'.value = exSort.value ∧
      ([2, 3, 4].length ≤ 1 → m' = exSort) :=
  q_sort_correct exSort 1 [2, 3, 4] false 10 4 (by decide) (by decide) (by decide)

/-- The example of §8: "bob", "alice", "carl" sorts to "alice", "bob", "carl". -/
theorem q_sort_example :
    ∃ m', q_sort 4 exSort 1 false 10 = .ok m' ∧ IsQueue m' 1 [3, 2, 4] :=
  ⟨_, rfl, by decide⟩

/-- C3 fails: on a queue of two elements with equal values, `q_sort` exchanges the two nodes. -/
theorem q_sort_not_stable :
    ∃ m', q_sort 3 exTie 1 false 10 = .ok m' ∧ IsQueue exTie 1 [2, 3] ∧
      ele_compare exTie 2 3 = 0 ∧ IsQueue m' 1 [3, 2] :=
  ⟨_, rfl, by decide, by decide, by decide⟩


/-! ### C4: merge of a chain of queues -/

theorem q_merge_loop_spec (descend : Bool) (ch first dest : Nat) :
    ∀ (Ks : List (Nat × List Nat)) (P D : List Nat) (fuel : Nat) (m : Heap) (cnt : Int),
      IsQueue m ch (P ++ Ks.map Prod.fst) →
      m.q first = dest → first ∉ Ks.map Prod.fst →
      IsQueue m dest D → Sorted m descend D →
      (∀ k ∈ Ks, IsQueue m (m.q k.1) k.2 ∧ Sorted m descend k.2) →
      (Ks.map (ctxNodes m)).Pairwise (fun X Y => ∀ x ∈ X, x ∉ Y) →
      (∀ k ∈ Ks, ∀ x ∈ dest :: D, x ∉ ctxNodes m k) →
      (∀ x ∈ ch :: (P ++ Ks.map Prod.fst), x ∉ dest :: D ∧ ∀ k ∈ Ks, x ∉ ctxNodes m k) →
      Ks.length + D.length + (Ks.map (fun k => k.2.length)).sum + 2 ≤ fuel →
      ∃ m' R, q_merge_loop fuel m ch first (hd (Ks.map Prod.fst) ch)
          (m.next (hd (Ks.map Prod.fst) ch)) descend cnt =
          .ok (m', if Ks = [] then cnt
            else (D.length : Int) + ((Ks.map (fun k => k.2.length)).sum : Nat)) ∧
        IsQueue m' dest R ∧ Sorted m' descend R ∧ R.Perm (D ++ (Ks.map Prod.snd).flatten) ∧
        (∀ k ∈ Ks, IsQueue m' (m.q k.1) []) ∧
        FrameOff m m' (dest :: D ++ (Ks.map (ctxNodes m)).flatten) ∧
        m'.value = m.value ∧ m'.q = m.q
  | [], P, D, fuel, m, cnt, _, _, _, hqd, hsd, _, _, _, _, hf => by
    obtain ⟨f, rfl⟩ : ∃ f, fuel = f + 1 := ⟨fuel - 1, by omega⟩
    exact ⟨m, D, by simp [q_merge_loop], hqd, hsd, by simp, by simp, FrameOff.refl _ _, rfl, rfl⟩
  | (c, S) :: Ks, P, D, fuel, m, cnt, hch, hfirst, hnf, hqd, hsd, hqs, hpw, hdd, hcd, hf => by
    obtain ⟨f, rfl⟩ : ∃ f, fuel = f + 1 := ⟨fuel - 1, by omega⟩
    simp only [List.map_cons, List.sum_cons, List.length_cons] at hf
    have hc : c ≠ ch := hch.head_ne (by simp)
    have hcf : c ≠ first := by rintro rfl; simp at hnf
    have hn : m.next c = hd (Ks.map Prod.fst) ch := IsQueue.next_mid (A := P) (by simpa using hch)
    obtain ⟨hqS, hsS⟩ := hqs (c, S) (by simp)
    simp only at hqS hsS
    -- the merge of this context's queue into the first queue
    obtain ⟨m1, hrun1, hq1, he1, hf1, hv1, hqq1, -⟩ :=
      q_merge_two_queues_spec m dest (m.q c) D S descend f hqd hqS
        (by simpa [ctxNodes] using hdd (c, S) (by simp)) (by omega)
    have hctx : ∀ k, ctxNodes m1 k = ctxNodes m k := fun k => by simp [ctxNodes, hqq1]
    have hperm1 := mergeList_perm
      ((if descend then ele_compare_greater else ele_compare_less) m) S D
    have hmem1 : ∀ x,
        x ∈ dest :: mergeList ((if descend then ele_compare_greater else ele_compare_less) m) S D →
        x ∈ dest :: D ∨ x ∈ ctxNodes m (c, S) := by
      intro x hx
      rcases List.mem_cons.1 hx with e | e
      · left; simp [e]
      · rcases List.mem_append.1 (hperm1.subset e) with e' | e'
        · left; exact List.mem_cons_of_mem _ e'
        · right; simp [ctxNodes, e']
    rw [List.map_cons, List.pairwise_cons] at hpw
    have hfoot : ∀ x, x ∈ dest :: D ++ m.q c :: S → x ∈ dest :: D ∨ x ∈ ctxNodes m (c, S) := by
      intro x hx; simp [ctxNodes] at hx ⊢; tauto
    have ih := q_merge_loop_spec descend ch first dest Ks (P ++ [c])
      (mergeList ((if descend then ele_compare_greater else ele_compare_less) m) S D) f m1
      ((D.length : Int) + (S.length : Int))
      (by
        refine IsQueue.of_frameOff (by simpa using hch) hf1 ?_
        intro x hx hx'
        have := hcd x (by simpa using hx)
        rcases hfoot x hx' with e | e
        · exact this.1 e
        · exact this.2 (c, S) (by simp) e)
      (by rw [hqq1]; exact hfirst)
      (fun h => hnf (by simp [h]))
      hq1
      ((mergeList_sorted m descend S D hsS hsd).congr hv1)
      (by
        intro k hk
        obtain ⟨a, b⟩ := hqs k (by simp [hk])
        refine ⟨?_, b.congr hv1⟩
        rw [hqq1]
        refine a.of_frameOff hf1 ?_
        intro x hx hx'
        rcases hfoot x hx' with e | e
        · exact hdd k (by simp [hk]) x e hx
        · exact hpw.1 _ (List.mem_map_of_mem _ hk) x e hx)
      (by
        have : Ks.map (ctxNodes m1) = Ks.map (ctxNodes m) := by
          apply List.map_congr_left; intro k _; exact hctx k
        rw [this]; exact hpw.2)
      (by
        intro k hk x hx
        rw [hctx]
        rcases hmem1 x hx with e | e
        · exact hdd k (by simp [hk]) x e
        · exact hpw.1 _ (List.mem_map_of_mem _ hk) x e)
      (by
        intro x hx
        have := hcd x (by simpa using hx)
        refine ⟨?_, ?_⟩
        · intro hx'
          rcases hmem1 x hx' with e | e
          · exact this.1 e
          · exact this.2 (c, S) (by simp) e
        · intro k hk
          rw [hctx]
          exact this.2 k (by simp [hk]))
      (by
        rw [hperm1.length_eq]
        simp only [List.length_append]
        omega)
    obtain ⟨m', R, hrun, hqR, hsR, hpR, heR, hfR, hvR, hqqR⟩ := ih
    have hmaps : Ks.map (ctxNodes m1) = Ks.map (ctxNodes m) := by
      apply List.map_congr_left; intro k _; exact hctx k
    rw [hmaps] at hfR
    refine ⟨m', R, ?_, hqR, hsR, ?_, ?_, ?_, hvR.trans hv1, hqqR.trans hqq1⟩
    · rw [q_merge_loop]
      simp only [List.map_cons, hd_cons, hc, hcf, if_false, hfirst, hrun1, ok_bind, hn]
      rw [hrun]
      congr 2
      by_cases hK : Ks = []
      · subst hK; simp
      · simp only [hK, if_false, reduceCtorEq]
        rw [hperm1.length_eq]
        simp only [List.length_append, List.sum_cons]
        push_cast
        ring
    · refine hpR.trans ?_
      simp only [List.map_cons, List.flatten_cons, ← List.append_assoc]
      exact List.Perm.append_right _ hperm1
    · intro k hk
      rcases List.mem_cons.1 hk with rfl | hk'
      · refine he1.of_frameOff hfR ?_
        intro x hx hx'
        simp only [List.mem_singleton] at hx
        subst hx
        rcases List.mem_append.1 hx' with e | e
        · rcases hmem1 _ e with e' | e'
          · exact hdd (c, S) (by simp) _ e' (by simp [ctxNodes])
          · have hnd := hqS.2.1
            have hne : m.q c ≠ dest := by
              rintro h
              exact hdd (c, S) (by simp) dest (by simp) (by simp [ctxNodes, h])
            have : m.q c ∈ D ∨ m.q c ∈ S := by
              rcases List.mem_cons.1 e with e1 | e1
              · exact absurd e1 hne
              · exact List.mem_append.1 (hperm1.subset e1)
            rcases this with e1 | e1
            · exact hdd (c, S) (by simp) _ (List.mem_cons_of_mem _ e1) (by simp [ctxNodes])
            · simp [List.nodup_cons] at hnd; exact hnd.1 e1
        · obtain ⟨Y, hY, hxY⟩ := List.mem_flatten.1 e
          exact hpw.1 Y hY _ (by simp [ctxNodes]) hxY
      · have := heR k hk'
        rwa [hqq1] at this
    · refine hf1.trans hfR ?_ ?_
      · intro x hx
        simp only [List.map_cons, List.flatten_cons]
        simp [ctxNodes] at hx ⊢; tauto
      · intro x hx
        simp only [List.map_cons, List.flatten_cons]
        rcases List.mem_append.1 hx with e | e
        · rcases hmem1 x e with e' | e'
          · exact List.mem_append_left _ e'
          · exact List.mem_append_right _ (List.mem_append_left _ e')
        · exact List.mem_append_right _ (List.mem_append_right _ e)

/-- C4: for a chain of contexts `K` (chain node and queue content of each; possibly empty or
of one context) whose queues are present, sorted according to `descend` and share no node
with one another or with the chain, `q_merge` returns the sum of the sizes; the first queue
ends well-formed, sorted and holding exactly the nodes of all the queues, every other queue
ends empty, and a chain of at most one context leaves the heap as it was.  On an absent chain
the result is `0`. -/
theorem q_merge_correct (m : Heap) (head : Nat) (K : List (Nat × List Nat)) (descend : Bool)
    (fuel : Nat)
    (hch : IsQueue m head (K.map Prod.fst))
    (hqs : ∀ k ∈ K, IsQueue m (m.q k.1) k.2 ∧ Sorted m descend k.2)
    (hsep : (K.map (ctxNodes m)).Pairwise (fun X Y => ∀ x ∈ X, x ∉ Y))
    (hchsep : ∀ x ∈ head :: K.map Prod.fst, ∀ k ∈ K, x ∉ ctxNodes m k)
    (hfuel : K.length + (K.map (fun k => k.2.length)).sum + 3 ≤ fuel) :
    q_merge fuel m 0 descend = .ok (m, 0) ∧
    ∃ m', q_merge fuel m head descend =
        .ok (m', (((K.map (fun k => k.2.length)).sum : Nat) : Int)) ∧
      (K.length ≤ 1 → m' = m) ∧ m'.value = m.value ∧ m'.q = m.q ∧
      IsQueue m' head (K.map Prod.fst) ∧
      ∀ c L rest, K = (c, L) :: rest →
        (∃ R, IsQueue m' (m.q c) R ∧ Sorted m' descend R ∧
          R.Perm (K.map Prod.snd).flatten) ∧
        ∀ k ∈ rest, IsQueue m' (m.q k.1) [] := by
  refine ⟨by simp [q_merge], ?_⟩
  have h0 : head ≠ 0 := hch.not_zero (by simp)
  match K, hch, hqs, hsep, hchsep, hfuel with
  | [], hch, _, _, _, _ =>
    have := hch.empty_iff.2 rfl
    exact ⟨m, by simp [q_merge, this], fun _ => rfl, rfl, rfl, hch, by simp⟩
  | [(c, L)], hch, hqs, _, _, hfuel =>
    have hemp : list_empty m head = false := by
      rw [Bool.eq_false_iff]; exact fun h => by simpa using hch.empty_iff.1 h
    have hsing : list_is_singular m head = true := hch.singular_iff.2 (by simp)
    have hn : m.next head = c := by simpa using hch.next_head
    obtain ⟨hq, hs⟩ := hqs (c, L) (by simp)
    have hsz : q_size fuel m (m.q c) = .ok (L.length : Int) :=
      q_size_spec hq (by simp at hfuel; omega)
    refine ⟨m, by simp [q_merge, h0, hemp, hsing, hn, hsz], fun _ => rfl, rfl, rfl, hch, ?_⟩
    intro c' L' rest hK
    simp only [List.cons.injEq, Prod.mk.injEq] at hK
    obtain ⟨⟨rfl, rfl⟩, rfl⟩ := hK
    exact ⟨⟨L, hq, hs, by simp⟩, by simp⟩
  | (c, L) :: k2 :: Ks, hch, hqs, hsep, hchsep, hfuel =>
    have hemp : list_empty m head = false := by
      rw [Bool.eq_false_iff]; exact fun h => by simpa using hch.empty_iff.1 h
    have hsing : list_is_singular m head = false := by
      rw [Bool.eq_false_iff]; exact fun h => by simpa using hch.singular_iff.1 h
    have hn : m.next head = c := by simpa using hch.next_head
    have hc : c ≠ head := hch.head_ne (by simp)
    have hn2 : m.next c = hd ((k2 :: Ks).map Prod.fst) head :=
      IsQueue.next_mid (A := []) (by simpa using hch)
    obtain ⟨hq, hs⟩ := hqs (c, L) (by simp)
    obtain ⟨f, rfl⟩ : ∃ f, fuel = f + 1 := ⟨fuel - 1, by omega⟩
    rw [List.map_cons, List.pairwise_cons] at hsep
    have hnd := hch.2.1
    obtain ⟨m', R, hrun, hqR, hsR, hpR, heR, hfR, hvR, hqqR⟩ :=
      q_merge_loop_spec descend head c (m.q c) (k2 :: Ks) [c] L f m 0
        (by simpa using hch) rfl
        (by
          intro h
          simp only [List.map_cons, List.nodup_cons] at hnd
          exact hnd.2.1 h)
        hq hs (fun k hk => hqs k (List.mem_cons_of_mem _ hk)) hsep.2
        (fun k hk x hx => hsep.1 _ (List.mem_map_of_mem _ hk) x hx)
        (by
          intro x hx
          have hx' : x ∈ head :: List.map Prod.fst ((c, L) :: k2 :: Ks) := by
            simpa using hx
          exact ⟨hchsep x hx' (c, L) (by simp),
            fun k hk => hchsep x hx' k (List.mem_cons_of_mem _ hk)⟩)
        (by simp at hfuel ⊢; omega)
    refine ⟨m', ?_, fun h => by simp at h, hvR, hqqR, ?_, ?_⟩
    · simp only [List.map_cons, List.sum_cons, reduceCtorEq, if_false] at hrun ⊢
      simp only [q_merge, h0, hemp, hsing, hn, Bool.or_false, decide_False, if_false,
        Bool.false_eq_true]
      rw [q_merge_loop]
      simp only [hc, if_false, if_true, hn2, List.map_cons, hd_cons]
      simp only [hd_cons] at hrun
      rw [hrun]
      congr 2
    · refine hch.of_frameOff hfR ?_
      intro x hx hx'
      rcases List.mem_append.1 hx' with e | e
      · exact hchsep x hx (c, L) (by simp) e
      · obtain ⟨Y, hY, hxY⟩ := List.mem_flatten.1 e
        obtain ⟨k, hk, rfl⟩ := List.mem_map.1 hY
        exact hchsep x hx k (List.mem_cons_of_mem _ hk) hxY
    · intro c' L' rest hK
      simp only [List.cons.injEq, Prod.mk.injEq] at hK
      obtain ⟨⟨rfl, rfl⟩, rfl⟩ := hK
      exact ⟨⟨R, hqR, hsR, by simpa using hpR⟩, heR⟩

theorem q_merge_correct_witness :
    q_merge 11 exChain 0 false = .ok (exChain, 0) ∧
    ∃ m', q_merge 11 exChain 20 false =
        .ok (m', ((([(21, [2, 3]), (22, [6]), (23, [10, 11])].map
          (fun k => k.2.length)).sum : Nat) : Int)) ∧
      ([(21, [2, 3]), (22, [6]), (23, [10, 11])].length ≤ 1 → m' = exChain) ∧
      m'.value = exChain.value ∧ m'.q = exChain.q ∧
      IsQueue m' 20 ([(21, [2, 3]), (22, [6]), (23, [10, 11])].map Prod.fst) ∧
      ∀ c L rest, [(21, [2, 3]), (22, [6]), (23, [10, 11])] = (c, L) :: rest →
        (∃ R, IsQueue m' (exChain.q c) R ∧ Sorted m' false R ∧
          R.Perm ([(21, [2, 3]), (22, [6]), (23, [10, 11])].map Prod.snd).flatten) ∧
        ∀ k ∈ rest, IsQueue m' (exChain.q k.1) [] :=
  q_merge_correct exChain 20 [(21, [2, 3]), (22, [6]), (23, [10, 11])] false 11
    (by decide) (by decide) (by decide) (by decide) (by decide)


/-! ### C5: removal of duplicated values -/

theorem strcmp_self (a : List Nat) : strcmp a a = 0 := by
  have := strcmp_antisymm a a; omega

theorem dedupList_sorted_aux (v : Nat → List Nat) :
    ∀ (L : List Nat) (d : Bool) (x : Nat),
      (x :: L).Pairwise (fun a b => strcmp (v a) (v b) ≤ 0) →
      dedupList v d (x :: L) =
        (if d = true ∨ ∃ y ∈ L, strcmp (v x) (v y) = 0 then [] else [x]) ++
          L.filter (fun y => occurrences v (x :: L) y == 1)
  | [], d, x, _ => by
    cases d <;> simp [dedupList]
  | r :: L, d, x, hs => by
    have hs' : (r :: L).Pairwise (fun a b => strcmp (v a) (v b) ≤ 0) := (List.pairwise_cons.1 hs).2
    have ih := dedupList_sorted_aux v L
      (!(r :: L).isEmpty && (strcmp (v x) (v (hd (r :: L) 0)) == 0)) r hs'
    have hxr : strcmp (v x) (v r) ≤ 0 := (List.pairwise_cons.1 hs).1 r (by simp)
    have hrL : ∀ y ∈ L, strcmp (v r) (v y) ≤ 0 := fun y hy => (List.pairwise_cons.1 hs').1 y hy
    have hmt : (∃ y ∈ r :: L, strcmp (v x) (v y) = 0) ↔ strcmp (v x) (v r) = 0 := by
      constructor
      · rintro ⟨y, hy, hxy⟩
        rcases List.mem_cons.1 hy with rfl | hy'
        · exact hxy
        · have h1 := hrL y hy'
          have h2 := strcmp_antisymm (v x) (v y)
          have h3 := strcmp_trans (v r) (v y) (v x) h1 (by omega)
          have h4 := strcmp_antisymm (v x) (v r)
          omega
      · intro h; exact ⟨r, by simp, h⟩
    -- an element further right that equals `x` also equals `r`
    have hkey : ∀ y ∈ L, strcmp (v x) (v y) = 0 → strcmp (v r) (v y) = 0 := by
      intro y hy hxy
      have h1 := hrL y hy
      have h2 := strcmp_antisymm (v x) (v y)
      have h3 := strcmp_trans (v y) (v x) (v r) (by omega) hxr
      have h4 := strcmp_antisymm (v r) (v y)
      omega
    rw [dedupList, ih]
    simp only [List.isEmpty_cons, Bool.not_false, Bool.true_and, hd_cons, Bool.or_eq_true,
      beq_iff_eq, List.filter_cons]
    have hocc : ∀ (a : Nat) (M : List Nat) (y : Nat), occurrences v (a :: M) y =
        occurrences v M y + (if strcmp (v a) (v y) = 0 then 1 else 0) := by
      intro a M y
      simp [occurrences, List.countP_cons]
    have hb : occurrences v (x :: r :: L) r = 1 ↔
        ¬ (strcmp (v x) (v r) = 0 ∨ ∃ y ∈ L, strcmp (v r) (v y) = 0) := by
      have hc0 : occurrences v L r = 0 ↔ ¬ ∃ y ∈ L, strcmp (v r) (v y) = 0 := by
        unfold occurrences
        rw [List.countP_eq_zero]
        constructor
        · rintro h ⟨y, hy, e⟩
          have := strcmp_antisymm (v r) (v y)
          exact h y hy (by simp; omega)
        · intro h y hy e
          have := strcmp_antisymm (v r) (v y)
          exact h ⟨y, hy, by simp at e; omega⟩
      rw [hocc, hocc, if_pos (strcmp_self _), not_or, ← hc0]
      by_cases hx : strcmp (v x) (v r) = 0
      · simp [hx]
      · simp [hx]
    have hc : L.filter (fun y => occurrences v (r :: L) y == 1) =
        L.filter (fun y => occurrences v (x :: r :: L) y == 1) := by
      apply List.filter_congr
      intro y hy
      have hpos : 0 < occurrences v L y :=
        List.countP_pos_iff.2 ⟨y, hy, by simp [strcmp_self]⟩
      rw [hocc x, hocc r]
      by_cases hxy : strcmp (v x) (v y) = 0
      · have := hkey y hy hxy
        rw [if_pos hxy, if_pos this]
        have e1 : (occurrences v L y + 1 + 1 == 1) = false := by simp
        have e2 : (occurrences v L y + 1 == 1) = false := by simp; omega
        rw [e1, e2]
      · rw [if_neg hxy]; rfl
    rw [← hc]
    by_cases hx : strcmp (v x) (v r) = 0
    · have h1 : (d = true ∨ ∃ y ∈ r :: L, strcmp (v x) (v y) = 0) := Or.inr (hmt.2 hx)
      have h2 : ¬ occurrences v (x :: r :: L) r = 1 := fun h => (hb.1 h) (Or.inl hx)
      rw [if_pos (Or.inl hx), if_pos (Or.inl hx), if_pos h1, if_neg h2]
      rfl
    · have hmt' : ¬ ∃ y ∈ r :: L, strcmp (v x) (v y) = 0 := fun h => hx (hmt.1 h)
      have e1 : (strcmp (v x) (v r) = 0 ∨ d = true) ↔
          (d = true ∨ ∃ y ∈ r :: L, strcmp (v x) (v y) = 0) :=
        ⟨fun h => h.elim (fun h => absurd h hx) Or.inl,
          fun h => h.elim Or.inr (fun h => absurd h hmt')⟩
      rw [if_congr e1 rfl rfl]
      congr 1
      by_cases hex : ∃ y ∈ L, strcmp (v r) (v y) = 0
      · have h2 : ¬ occurrences v (x :: r :: L) r = 1 := fun h => (hb.1 h) (Or.inr hex)
        rw [if_pos (Or.inr hex), if_neg h2]; rfl
      · have h3 : ¬ (strcmp (v x) (v r) = 0 ∨ ∃ y ∈ L, strcmp (v r) (v y) = 0) :=
          fun h => h.elim hx hex
        have h2 : occurrences v (x :: r :: L) r = 1 := hb.2 h3
        rw [if_neg h3, if_pos h2]; rfl

theorem dedupList_sorted (v : Nat → List Nat) (L : List Nat)
    (hs : L.Pairwise (fun a b => strcmp (v a) (v b) ≤ 0)) :
    dedupList v false L = L.filter (fun y => occurrences v L y == 1) := by
  cases L with
  | nil => simp [dedupList]
  | cons x L =>
    rw [dedupList_sorted_aux v L false x hs]
    have hc0 : occurrences v L x = 0 ↔ ¬ ∃ y ∈ L, strcmp (v x) (v y) = 0 := by
      unfold occurrences
      rw [List.countP_eq_zero]
      constructor
      · rintro h ⟨y, hy, e⟩
        have := strcmp_antisymm (v x) (v y)
        exact h y hy (by simp; omega)
      · intro h y hy e
        have := strcmp_antisymm (v x) (v y)
        exact h ⟨y, hy, by simp at e; omega⟩
    have hx : occurrences v (x :: L) x = occurrences v L x + 1 := by
      simp [occurrences, List.countP_cons, strcmp_self]
    by_cases hex : ∃ y ∈ L, strcmp (v x) (v y) = 0
    · have : ¬ occurrences v L x = 0 := fun h => hc0.1 h hex
      simp [List.filter_cons, hx, hex, this]
    · have := hc0.2 hex
      simp [List.filter_cons, hx, hex, this]


theorem IsQueue.release {m : Heap} {h : Nat} {L : List Nat} (hq : IsQueue m h L) (e : Nat) :
    IsQueue (q_release_element m e) h L := hq

theorem hd_eq_head_iff {m : Heap} {h : Nat} {A B : List Nat} (hq : IsQueue m h (A ++ B)) :
    hd B h = h ↔ B = [] := by
  cases B with
  | nil => simp
  | cons b B' =>
    have : b ≠ h := hq.head_ne (by simp)
    simp [this]

theorem q_delete_dup_loop_spec (head : Nat) :
    ∀ (Rest Kept : List Nat) (fuel : Nat) (m : Heap) (d : Bool),
      IsQueue m head (Kept ++ Rest) → Rest.length + 1 ≤ fuel →
      ∃ m', q_delete_dup_loop fuel m head (hd Rest head) (m.next (hd Rest head)) d = .ok m' ∧
        IsQueue m' head (Kept ++ dedupList m.value d Rest) ∧ m'.value = m.value ∧
        m'.q = m.q ∧ FrameOff m m' (head :: (Kept ++ Rest))
  | [], Kept, fuel, m, d, hq, hf => by
    obtain ⟨f, rfl⟩ : ∃ f, fuel = f + 1 := ⟨fuel - 1, by omega⟩
    exact ⟨m, by simp [q_delete_dup_loop], by simpa [dedupList] using hq, rfl, rfl,
      FrameOff.refl _ _⟩
  | x :: Rest, Kept, fuel, m, d, hq, hf => by
    obtain ⟨f, rfl⟩ : ∃ f, fuel = f + 1 := ⟨fuel - 1, by omega⟩
    have hx : x ≠ head := hq.head_ne (by simp)
    have hn : m.next x = hd Rest head := hq.next_mid
    have hne : (hd Rest head != head) = !Rest.isEmpty := by
      have := hd_eq_head_iff (A := Kept ++ [x]) (B := Rest) (by simpa using hq)
      cases Rest with
      | nil => simp
      | cons r R => simpa using this
    have hhd : Rest ≠ [] → hd Rest head = hd Rest 0 := fun h => hd_eq_of_ne_nil h _ _
    -- the value of `match` computed by the loop body
    have hmt : (if (hd Rest head != head) = true then
          (hd Rest head != head) && (strcmp (m.value x) (m.value (hd Rest head)) == 0)
        else (hd Rest head != head)) =
        (!Rest.isEmpty && (strcmp (m.value x) (m.value (hd Rest 0)) == 0)) := by
      rw [hne]
      cases Rest with
      | nil => simp
      | cons r R => simp
    generalize hmtv : (!Rest.isEmpty && (strcmp (m.value x) (m.value (hd Rest 0)) == 0)) = mt
      at hmt
    by_cases hdel : (mt || d) = true
    · have hq1 : IsQueue (q_release_element (list_del m x) x) head (Kept ++ Rest) :=
        (hq.del).release x
      have hfr1 : FrameOff m (q_release_element (list_del m x) x) (head :: Kept ++ Rest) :=
        hq.del_frame
      obtain ⟨m', hrun, hq', hv', hqq', hfr'⟩ :=
        q_delete_dup_loop_spec head Rest Kept f (q_release_element (list_del m x) x) mt hq1
          (by simp at hf; omega)
      refine ⟨m', ?_, ?_, hv', hqq', ?_⟩
      · rw [q_delete_dup_loop]
        simp only [hd_cons, hx, if_false, hn, hmt, hdel, if_true]
        exact hrun
      · have : dedupList m.value d (x :: Rest) = dedupList m.value mt Rest := by
          rw [dedupList]; simp only [hmtv, hdel, if_true, List.nil_append]
        rw [this]; exact hq'
      · refine hfr1.trans hfr' ?_ ?_ <;> intro y hy <;> simp at hy ⊢ <;> tauto
    · have hq1 : IsQueue m head ((Kept ++ [x]) ++ Rest) := by simpa using hq
      obtain ⟨m', hrun, hq', hv', hqq', hfr'⟩ :=
        q_delete_dup_loop_spec head Rest (Kept ++ [x]) f m mt hq1 (by simp at hf; omega)
      refine ⟨m', ?_, ?_, hv', hqq', ?_⟩
      · rw [q_delete_dup_loop]
        simp only [hd_cons, hx, if_false, hn, hmt, hdel]
        exact hrun
      · have : dedupList m.value d (x :: Rest) = x :: dedupList m.value mt Rest := by
          rw [dedupList]; simp only [hmtv, hdel, if_false, List.singleton_append]
          simp
        rw [this]; simpa using hq'
      · refine hfr'.mono ?_
        intro y hy; simp at hy ⊢; tauto


/-- C5: on a present queue whose values are sorted ascending, `q_delete_dup` returns true and
leaves, in their original relative order, exactly the nodes whose value occurs once in the
input; in particular an empty queue stays empty. -/
theorem q_delete_dup_correct (m : Heap) (head : Nat) (L : List Nat) (fuel : Nat)
    (hq : IsQueue m head L) (hs : Sorted m false L) (hf : L.length + 1 ≤ fuel) :
    ∃ m', q_delete_dup fuel m head = .ok (m', true) ∧
      IsQueue m' head (L.filter (fun x => occurrences m.value L x == 1)) ∧
      m'.value = m.value := by
  have h0 : head ≠ 0 := hq.not_zero (by simp)
  by_cases hL : L = []
  · subst hL
    exact ⟨m, by simp [q_delete_dup, h0, hq.empty_iff.2 rfl], by simpa using hq, rfl⟩
  · have hemp : list_empty m head = false := by
      rw [Bool.eq_false_iff]; exact fun h => hL (hq.empty_iff.1 h)
    obtain ⟨m', hrun, hq', hv', -, -⟩ :=
      q_delete_dup_loop_spec head L [] fuel m false (by simpa using hq) hf
    rw [← hq.next_head] at hrun
    refine ⟨m', by simp [q_delete_dup, h0, hemp, hrun], ?_, hv'⟩
    have hs' : L.Pairwise (fun a b => strcmp (m.value a) (m.value b) ≤ 0) := by
      simpa [Sorted, ele_compare] using hs
    rw [← dedupList_sorted m.value L hs']
    simpa using hq'

theorem q_delete_dup_correct_witness :
    ∃ m', q_delete_dup 6 exDup 1 = .ok (m', true) ∧
      IsQueue m' 1 ([2, 3, 4, 5, 6].filter (fun x => occurrences exDup.value [2, 3, 4, 5, 6] x == 1)) ∧
      m'.value = exDup.value :=
  q_delete_dup_correct exDup 1 [2, 3, 4, 5, 6] 6 (by decide) (by decide) (by decide)

/-- The example of §8: "a", "a", "b", "c", "c" becomes "b". -/
theorem q_delete_dup_example :
    ∃ m', q_delete_dup 6 exDup 1 = .ok (m', true) ∧ IsQueue m' 1 [4] :=
  ⟨_, rfl, by decide⟩


/-! ### C6: swap of adjacent pairs -/

theorem swap_relink_eq (m1 : Heap) (a b : Nat) (hab : a ≠ b) :
    ((((m1.setPrev a b).setPrev b (m1.prev a)).setNext (m1.prev a) b).setNext b a) =
      list_add_tail m1 b a := by
  simp only [list_add_tail, Heap.setNext, Heap.setPrev]
  congr 1
  funext x
  have hba : b ≠ a := fun h => hab h.symm
  by_cases h1 : x = a
  · subst h1; simp [hab]
  · by_cases h2 : x = b
    · subst h2; simp [h1]
    · simp [h1, h2]

theorem q_swap_loop_spec (head : Nat) :
    ∀ (n : Nat) (Rest Done : List Nat) (fuel : Nat) (m : Heap), Rest.length ≤ n →
      IsQueue m head (Done ++ Rest) → Rest.length + 1 ≤ fuel →
      ∃ m', q_swap_loop fuel m head (hd Rest head) = .ok m' ∧
        IsQueue m' head (Done ++ swapPairs Rest) ∧ m'.value = m.value ∧ m'.q = m.q ∧
        m'.freed = m.freed ∧ FrameOff m m' (head :: (Done ++ Rest))
  | _, [], Done, fuel, m, _, hq, hf => by
    obtain ⟨f, rfl⟩ : ∃ f, fuel = f + 1 := ⟨fuel - 1, by omega⟩
    exact ⟨m, by simp [q_swap_loop], by simpa [swapPairs] using hq, rfl, rfl, rfl,
      FrameOff.refl _ _⟩
  | _, [a], Done, fuel, m, _, hq, hf => by
    obtain ⟨f, rfl⟩ : ∃ f, fuel = f + 1 := ⟨fuel - 1, by omega⟩
    have ha : a ≠ head := hq.head_ne (by simp)
    have hn : m.next a = head := by simpa using hq.next_mid
    exact ⟨m, by simp [q_swap_loop, ha, hn], by simpa [swapPairs] using hq, rfl, rfl, rfl,
      FrameOff.refl _ _⟩
  | 0, a :: b :: Rest, _, _, _, hn, _, _ => by simp at hn
  | n + 1, a :: b :: Rest, Done, fuel, m, hlen, hq, hf => by
    obtain ⟨f, rfl⟩ : ∃ f, fuel = f + 1 := ⟨fuel - 1, by omega⟩
    have ha : a ≠ head := hq.head_ne (by simp)
    have hb : b ≠ head := hq.head_ne (by simp)
    have hna : m.next a = b := by simpa using hq.next_mid
    have hnd := hq.2.1
    have hab : a ≠ b := by
      rintro rfl; simp [List.nodup_cons, List.nodup_append] at hnd
    have hq' : IsQueue m head ((Done ++ [a]) ++ b :: Rest) := by simpa using hq
    have hq1 : IsQueue (list_del m b) head (Done ++ a :: Rest) := by simpa using hq'.del
    have hfr1 : FrameOff m (list_del m b) (head :: (Done ++ a :: Rest)) := by
      simpa using hq'.del_frame
    have hpa : (list_del m b).prev a = m.prev a := by
      have e1 : m.next b = hd Rest head := hq'.next_mid
      have e2 : m.prev b = a := by simpa [lst_append_singleton] using hq'.prev_mid
      have : a ≠ hd Rest head := by
        intro e
        rcases hd_mem Rest head with e' | e'
        · exact ha (e.trans e')
        · rw [← e] at e'; simp [List.nodup_cons, List.nodup_append] at hnd; tauto
      simp [list_del, Heap.setNext, Heap.setPrev, e1, e2, this]
    have hbn : b ∉ head :: Done ++ a :: Rest := by
      simp [List.nodup_cons, List.nodup_append] at hnd ⊢
      refine ⟨hb, ?_, hab.symm, ?_⟩ <;> tauto
    have hq2 : IsQueue (list_add_tail (list_del m b) b a) head (Done ++ b :: a :: Rest) := by
      have := IsQueue.add_tail (A := Done) (B := a :: Rest) (x := b) hq1 hbn
        (hq.not_zero (by simp))
      simpa using this
    have hfr2 : FrameOff (list_del m b) (list_add_tail (list_del m b) b a)
        (head :: Done ++ b :: a :: Rest) := by
      have := IsQueue.add_tail_frame (A := Done) (B := a :: Rest) (x := b) hq1
      simpa using this
    have hn2 : (list_add_tail (list_del m b) b a).next a = hd Rest head :=
      IsQueue.next_mid (A := Done ++ [b]) (by simpa using hq2)
    obtain ⟨m', hrun, hqr, hv, hqq, hfreed, hfr⟩ :=
      q_swap_loop_spec head n Rest (Done ++ [b, a]) f (list_add_tail (list_del m b) b a)
        (by simp at hlen; omega) (by simpa using hq2) (by simp at hf; omega)
    refine ⟨m', ?_, by simpa [swapPairs] using hqr, by simpa using hv, by simpa using hqq,
      by simpa using hfreed, ?_⟩
    · rw [q_swap_loop]
      simp only [hd_cons, ha, if_false, hna, hb]
      rw [← hpa, swap_relink_eq _ a b hab, hn2]
      exact hrun
    · refine (hfr1.trans hfr2 (Z := head :: (Done ++ a :: b :: Rest)) ?_ ?_).trans hfr ?_ ?_ <;>
        intro y hy <;> simp at hy ⊢ <;> tauto


theorem swapPairs_length : ∀ L : List Nat, (swapPairs L).length = L.length
  | [] => rfl
  | [_] => rfl
  | a :: b :: rest => by simp [swapPairs, swapPairs_length rest]

theorem swapPairs_pair : ∀ (L : List Nat) (i : Nat), 2 * i + 1 < L.length →
    (swapPairs L)[2 * i]? = L[2 * i + 1]? ∧ (swapPairs L)[2 * i + 1]? = L[2 * i]?
  | [], _, h => by simp at h
  | [_], _, h => by simp at h
  | a :: b :: rest, 0, _ => by simp [swapPairs]
  | a :: b :: rest, i + 1, h => by
    have ih := swapPairs_pair rest i (by simp at h; omega)
    have e1 : 2 * (i + 1) = 2 * i + 1 + 1 := by ring
    have e2 : 2 * (i + 1) + 1 = 2 * i + 1 + 1 + 1 := by ring
    rw [e2, e1]
    simp only [swapPairs, List.getElem?_cons_succ]
    exact ih

theorem getLast_cons_of_ne_nil (a : Nat) {l : List Nat} (h : l ≠ []) :
    (a :: l).getLast? = l.getLast? := by
  cases l with
  | nil => exact absurd rfl h
  | cons b l' => exact List.getLast?_cons_cons

theorem swapPairs_odd_last : ∀ L : List Nat, L.length % 2 = 1 →
    (swapPairs L).getLast? = L.getLast?
  | [], h => by simp at h
  | [_], _ => rfl
  | a :: b :: rest, h => by
    have ih := swapPairs_odd_last rest (by simp at h; omega)
    have hne : rest ≠ [] := by rintro rfl; simp at h
    have hne' : swapPairs rest ≠ [] := by
      intro e; have := swapPairs_length rest; rw [e] at this
      exact hne (List.length_eq_zero.1 this.symm)
    simp only [swapPairs]
    rw [getLast_cons_of_ne_nil b (List.cons_ne_nil _ _), getLast_cons_of_ne_nil a hne',
      getLast_cons_of_ne_nil a (List.cons_ne_nil _ _), getLast_cons_of_ne_nil b hne]
    exact ih

/-- C6: on a present queue `q_swap` returns and leaves the same nodes, values untouched,
relinked in the order `[a1, a0, a3, a2, ...]`: the nodes at positions `2i` and `2i+1` are
exchanged for every complete pair, and the last node of a queue of odd length stays last. -/
theorem q_swap_correct (m : Heap) (head : Nat) (L : List Nat) (fuel : Nat)
    (hq : IsQueue m head L) (hf : L.length + 1 ≤ fuel) :
    ∃ m', q_swap fuel m head = .ok m' ∧ IsQueue m' head (swapPairs L) ∧
      m'.value = m.value ∧ (swapPairs L).length = L.length ∧
      (∀ i, 2 * i + 1 < L.length →
        (swapPairs L)[2 * i]? = L[2 * i + 1]? ∧ (swapPairs L)[2 * i + 1]? = L[2 * i]?) ∧
      (L.length % 2 = 1 → (swapPairs L).getLast? = L.getLast?) := by
  have h0 : head ≠ 0 := hq.not_zero (by simp)
  obtain ⟨m', hrun, hq', hv, -, -, -⟩ :=
    q_swap_loop_spec head L.length L [] fuel m (Nat.le_refl _) (by simpa using hq) hf
  rw [← hq.next_head] at hrun
  exact ⟨m', by simp [q_swap, h0, hrun], by simpa using hq', hv, swapPairs_length L,
    swapPairs_pair L, swapPairs_odd_last L⟩

theorem q_swap_correct_witness :
    ∃ m', q_swap 6 exFive 1 = .ok m' ∧ IsQueue m' 1 (swapPairs [2, 3, 4, 5, 6]) ∧
      m'.value = exFive.value ∧ (swapPairs [2, 3, 4, 5, 6]).length = [2, 3, 4, 5, 6].length ∧
      (∀ i, 2 * i + 1 < [2, 3, 4, 5, 6].length →
        (swapPairs [2, 3, 4, 5, 6])[2 * i]? = [2, 3, 4, 5, 6][2 * i + 1]? ∧
        (swapPairs [2, 3, 4, 5, 6])[2 * i + 1]? = [2, 3, 4, 5, 6][2 * i]?) ∧
      ([2, 3, 4, 5, 6].length % 2 = 1 →
        (swapPairs [2, 3, 4, 5, 6]).getLast? = [2, 3, 4, 5, 6].getLast?) :=
  q_swap_correct exFive 1 [2, 3, 4, 5, 6] 6 (by decide) (by decide)

/-- On the queue `[2, 3, 4, 5, 6]` the result of `q_swap` is `[3, 2, 5, 4, 6]`. -/
theorem q_swap_example :
    ∃ m', q_swap 6 exFive 1 = .ok m' ∧ IsQueue m' 1 [3, 2, 5, 4, 6] :=
  ⟨_, rfl, by decide⟩


/-! ### C7: reversal -/

theorem Heap.ext_fields {a b : Heap} (h1 : ∀ y, a.next y = b.next y) (h2 : ∀ y, a.prev y = b.prev y)
    (h3 : a.value = b.value) (h4 : a.q = b.q) (h5 : a.freed = b.freed) : a = b := by
  cases a; cases b
  simp only [Heap.mk.injEq]
  exact ⟨funext h1, funext h2, h3, h4, h5⟩

theorem next_chain_frame {m m' : Heap} : ∀ {l : List Nat},
    List.Chain' (fun a b => m.next a = b) l →
    (∀ a ∈ l.dropLast, m'.next a = m.next a) → List.Chain' (fun a b => m'.next a = b) l
  | [], _, _ => List.chain'_nil
  | [_], _, _ => List.chain'_singleton _
  | a :: b :: l, h, hn => by
    rw [List.chain'_cons] at h ⊢
    refine ⟨?_, next_chain_frame h.2 ?_⟩
    · rw [hn a (by simp)]; exact h.1
    · intro x hx; exact hn x (by simp [List.dropLast]; right; exact hx)

theorem q_reverse_loop_spec (head : Nat) :
    ∀ (Rest : List Nat) (x fuel : Nat) (mc : Heap),
      List.Chain' (fun a b => mc.next a = b) (x :: Rest ++ [head]) → head ∉ Rest →
      (x :: Rest).Nodup → Rest.length + 1 ≤ fuel →
      q_reverse_loop fuel mc head x = .ok (flipAll mc (x :: Rest))
  | [], x, fuel, mc, hc, _, _, hf => by
    obtain ⟨f, rfl⟩ : ∃ f, fuel = f + 1 := ⟨fuel - 1, by omega⟩
    have hn : mc.next x = head := by simpa using hc
    rw [q_reverse_loop]
    simp only [hn, if_true]
    congr 1
    apply Heap.ext_fields <;> try rfl
    · intro y
      by_cases hy : y = x
      · subst hy; simp [flipAll, Heap.setNext, Heap.setPrev]
      · simp [flipAll, Heap.setNext, Heap.setPrev, hy]
    · intro y
      by_cases hy : y = x
      · subst hy; simp [flipAll, Heap.setNext, Heap.setPrev, hn]
      · simp [flipAll, Heap.setNext, Heap.setPrev, hy]
  | y :: Rest, x, fuel, mc, hc, hh, hnd, hf => by
    obtain ⟨f, rfl⟩ : ∃ f, fuel = f + 1 := ⟨fuel - 1, by omega⟩
    have hc' : mc.next x = y ∧ List.Chain' (fun a b => mc.next a = b) (y :: Rest ++ [head]) := by
      simpa [List.chain'_cons] using hc
    obtain ⟨hn, hc2⟩ := hc'
    have hy : y ≠ head := fun e => hh (by simp [e])
    have hxy : x ≠ y := by rintro rfl; simp at hnd
    have hxR : x ∉ y :: Rest := (List.nodup_cons.1 hnd).1
    have ih := q_reverse_loop_spec head Rest y f
      ((mc.setNext x (mc.prev x)).setPrev x (mc.next x))
      (next_chain_frame hc2 (by
        intro a ha
        rw [show y :: Rest ++ [head] = (y :: Rest) ++ [head] by rfl, List.dropLast_concat] at ha
        have : a ≠ x := by rintro rfl; exact hxR ha
        simp [Heap.setNext, Heap.setPrev, this]))
      (fun h => hh (List.mem_cons_of_mem _ h)) (List.nodup_cons.1 hnd).2 (by simp at hf; omega)
    rw [hn] at ih
    rw [q_reverse_loop]
    simp only [hn, hy, if_false]
    rw [ih]
    congr 1
    apply Heap.ext_fields <;> try rfl
    · intro z
      by_cases hz : z = x
      · subst hz
        have h1 : z ∉ y :: Rest := hxR
        have h2 : z ∈ z :: y :: Rest := List.mem_cons_self _ _
        simp only [flipAll, Heap.setNext, Heap.setPrev, h1, h2, if_true, if_false, hn]
      · by_cases hz' : z ∈ y :: Rest
        · have : z ∈ x :: y :: Rest := List.mem_cons_of_mem _ hz'
          simp only [flipAll, Heap.setNext, Heap.setPrev, hz', this, if_true, hz, if_false]
        · have : z ∉ x :: y :: Rest := by simp at hz' ⊢; tauto
          simp only [flipAll, Heap.setNext, Heap.setPrev, hz', this, hz, if_false]
    · intro z
      by_cases hz : z = x
      · subst hz
        have h1 : z ∉ y :: Rest := hxR
        have h2 : z ∈ z :: y :: Rest := List.mem_cons_self _ _
        simp only [flipAll, Heap.setNext, Heap.setPrev, h1, h2, if_true, if_false, hn]
      · by_cases hz' : z ∈ y :: Rest
        · have : z ∈ x :: y :: Rest := List.mem_cons_of_mem _ hz'
          simp only [flipAll, Heap.setNext, Heap.setPrev, hz', this, if_true, hz, if_false]
        · have : z ∉ x :: y :: Rest := by simp at hz' ⊢; tauto
          simp only [flipAll, Heap.setNext, Heap.setPrev, hz', this, hz, if_false]

theorem IsQueue.flipAll {m : Heap} {h : Nat} {L : List Nat} (hq : IsQueue m h L) :
    IsQueue (Queue.flipAll m (h :: L)) h L.reverse := by
  obtain ⟨hc, hnd, hz⟩ := hq
  refine ⟨?_, ?_, ?_⟩
  · have hrev : h :: L.reverse ++ [h] = (h :: L ++ [h]).reverse := by simp
    rw [hrev, List.chain'_reverse]
    have hmem := List.Chain'.iff_mem.1 hc
    refine List.Chain'.imp ?_ hmem
    rintro a b ⟨ha, hb, hab⟩
    have ha' : a ∈ h :: L := by simp at ha ⊢; tauto
    have hb' : b ∈ h :: L := by simp at hb ⊢; tauto
    simp only [flip, Link, Queue.flipAll, ha', hb', if_true]
    exact ⟨hab.2, hab.1⟩
  · simpa using hnd
  · simpa using hz


theorem q_reverse_spec {m : Heap} {head : Nat} {L : List Nat} {fuel : Nat}
    (hq : IsQueue m head L) (hf : L.length + 1 ≤ fuel) :
    q_reverse fuel m head = .ok (flipAll m (head :: L)) := by
  have h0 : head ≠ 0 := hq.not_zero (by simp)
  by_cases hL : L = []
  · subst hL
    have hn : m.next head = head := by simpa using hq.next_head
    have hp : m.prev head = head := by simpa using hq.prev_head
    simp only [q_reverse, h0, hq.empty_iff.2 rfl, Bool.or_true, if_true, decide_False,
      Bool.false_or]
    congr 1
    apply Heap.ext_fields <;> try rfl
    · intro y
      by_cases hy : y = head
      · subst hy; simp [flipAll, hn, hp]
      · simp [flipAll, hy]
    · intro y
      by_cases hy : y = head
      · subst hy; simp [flipAll, hn, hp]
      · simp [flipAll, hy]
  · have hemp : list_empty m head = false := by
      rw [Bool.eq_false_iff]; exact fun h => hL (hq.empty_iff.1 h)
    simp only [q_reverse, h0, hemp, decide_False, Bool.or_false, Bool.false_eq_true, if_false]
    refine q_reverse_loop_spec head L head fuel m ?_ ?_ hq.2.1 hf
    · exact List.Chain'.imp (fun a b h => h.1) hq.1
    · exact (List.nodup_cons.1 hq.2.1).1

/-- C7: on a present queue `q_reverse` returns and leaves the same nodes, values untouched,
in the reverse of their former forward order; an empty queue and an absent queue are left
exactly as they were. -/
theorem q_reverse_correct (m : Heap) (head : Nat) (L : List Nat) (fuel : Nat)
    (hq : IsQueue m head L) (hf : L.length + 1 ≤ fuel) :
    (∃ m', q_reverse fuel m head = .ok m' ∧ IsQueue m' head L.reverse ∧
      m'.value = m.value ∧ (L = [] → m' = m)) ∧
    q_reverse fuel m 0 = .ok m := by
  refine ⟨⟨flipAll m (head :: L), q_reverse_spec hq hf, hq.flipAll, rfl, ?_⟩, by simp [q_reverse]⟩
  rintro rfl
  have h0 : head ≠ 0 := hq.not_zero (by simp)
  have h1 := q_reverse_spec hq hf
  simp only [q_reverse, h0, hq.empty_iff.2 rfl, Bool.or_true, if_true] at h1
  exact (Except.ok.inj h1).symm

theorem q_reverse_correct_witness :
    (∃ m', q_reverse 6 exFive 1 = .ok m' ∧ IsQueue m' 1 [2, 3, 4, 5, 6].reverse ∧
      m'.value = exFive.value ∧ ([2, 3, 4, 5, 6] = [] → m' = exFive)) ∧
    q_reverse 6 exFive 0 = .ok exFive :=
  q_reverse_correct exFive 1 [2, 3, 4, 5, 6] 6 (by decide) (by decide)


/-! ### C8: grouped reversal -/

theorem q_reverseK_spec {m : Heap} {head : Nat} {L : List Nat} {fuel : Nat} (k : Int)
    (hq : IsQueue m head L) (hL : L ≠ []) (hf : L.length + 1 ≤ fuel) :
    q_reverseK fuel m head k =
      .ok (if k ≥ (L.length : Int) then flipAll m (head :: L) else m) := by
  have h0 : head ≠ 0 := hq.not_zero (by simp)
  have hemp : list_empty m head = false := by
    rw [Bool.eq_false_iff]; exact fun h => hL (hq.empty_iff.1 h)
  have hsz : q_size fuel m head = .ok (L.length : Int) := q_size_spec hq hf
  simp only [q_reverseK, h0, hemp, decide_False, Bool.or_false, Bool.false_eq_true, if_false,
    hsz, ok_bind]
  by_cases hk : k ≥ (L.length : Int)
  · simp only [hk, if_true]; exact q_reverse_spec hq hf
  · simp only [hk, if_false]; rfl

/-- C8 fails: with `k = 2` on the queue `[2, 3, 4, 5, 6]`, `q_reverseK` leaves the queue as
it was instead of producing `[3, 2, 5, 4, 6]`; and with `k = 6`, greater than the size, it
reverses the whole queue instead of leaving it unchanged. -/
theorem q_reverseK_incomplete :
    IsQueue exFive 1 [2, 3, 4, 5, 6] ∧
    q_reverseK 6 exFive 1 2 = .ok exFive ∧
    ∃ m', q_reverseK 6 exFive 1 6 = .ok m' ∧ IsQueue m' 1 [6, 5, 4, 3, 2] :=
  ⟨by decide, rfl, _, rfl, by decide⟩

/-! ### C9, C10: removal of the middle element -/

theorem q_delete_mid_loop_spec (head x : Nat) (B : List Nat) :
    ∀ (Mid Done : List Nat) (fuel : Nat) (m : Heap),
      IsQueue m head (Done ++ (Mid ++ x :: B)) → Mid.length + 1 ≤ fuel →
      q_delete_mid_loop fuel m head (hd (Mid ++ x :: B) head)
          (m.next (hd (Mid ++ x :: B) head))
          ((Done.length : Int) + (Mid.length : Int)) (Done.length : Int) =
        .ok (q_release_element (list_del m x) x, true)
  | [], Done, fuel, m, hq, hf => by
    obtain ⟨f, rfl⟩ : ∃ f, fuel = f + 1 := ⟨fuel - 1, by omega⟩
    have hx : x ≠ head := hq.head_ne (by simp)
    simp [q_delete_mid_loop, hx]
  | y :: Mid, Done, fuel, m, hq, hf => by
    obtain ⟨f, rfl⟩ : ∃ f, fuel = f + 1 := ⟨fuel - 1, by omega⟩
    have hy : y ≠ head := hq.head_ne (by simp)
    have hn : m.next y = hd (Mid ++ x :: B) head :=
      IsQueue.next_mid (A := Done) (by simpa using hq)
    have ih := q_delete_mid_loop_spec head x B Mid (Done ++ [y]) f m (by simpa using hq)
      (by simp at hf; omega)
    have hidx : ¬ ((Done.length : Int) = (Done.length : Int) + ((y :: Mid).length : Int)) := by
      simp; omega
    rw [q_delete_mid_loop]
    simp only [List.cons_append, hd_cons, hy, if_false, hidx, hn]
    rw [← ih]
    congr 1
    · simp; omega
    · simp

/-- C9: on a present non-empty queue of `n` elements `q_delete_mid` returns true, unlinks and
releases the node at index `n / 2` (counted from `0`) and leaves the other `n - 1` nodes in
their original order. -/
theorem q_delete_mid_correct (m : Heap) (head : Nat) (L : List Nat) (fuel : Nat)
    (hq : IsQueue m head L) (hL : L ≠ []) (hf : L.length + 1 ≤ fuel) :
    ∃ m', q_delete_mid fuel m head = .ok (m', true) ∧
      IsQueue m' head (L.eraseIdx (L.length / 2)) ∧
      (L.eraseIdx (L.length / 2)).length = L.length - 1 ∧
      m'.value = m.value ∧ m'.freed = L[L.length / 2]?.toList ++ m.freed := by
  have h0 : head ≠ 0 := hq.not_zero (by simp)
  have hemp : list_empty m head = false := by
    rw [Bool.eq_false_iff]; exact fun h => hL (hq.empty_iff.1 h)
  have hpos : 0 < L.length := List.length_pos.2 hL
  have hlt : L.length / 2 < L.length := by omega
  have hsz : q_size fuel m head = .ok (L.length : Int) := q_size_spec hq hf
  have hsplit : L = L.take (L.length / 2) ++ L[L.length / 2] :: L.drop (L.length / 2 + 1) := by
    rw [← List.drop_eq_getElem_cons hlt, List.take_append_drop]
  have htl : (L.take (L.length / 2)).length = L.length / 2 := by simp; omega
  have hq2 : IsQueue m head
      ([] ++ (L.take (L.length / 2) ++ L[L.length / 2] :: L.drop (L.length / 2 + 1))) := by
    rw [List.nil_append, ← hsplit]; exact hq
  have hrun := q_delete_mid_loop_spec head (L[L.length / 2]) (L.drop (L.length / 2 + 1))
    (L.take (L.length / 2)) [] fuel m hq2 (by rw [htl]; omega)
  rw [← hsplit, ← hq.next_head, htl] at hrun
  have hq3 : IsQueue m head
      (L.take (L.length / 2) ++ L[L.length / 2] :: L.drop (L.length / 2 + 1)) := by
    rw [← hsplit]; exact hq
  refine ⟨q_release_element (list_del m (L[L.length / 2])) (L[L.length / 2]), ?_, ?_, ?_, rfl,
    ?_⟩
  · simp only [q_delete_mid, h0, hemp, decide_False, Bool.or_false, Bool.false_eq_true,
      if_false, hsz, ok_bind]
    have htd : Int.tdiv (L.length : Int) 2 = ((L.length / 2 : Nat) : Int) :=
      (Int.ofNat_tdiv L.length 2).symm
    rw [htd, ← hrun]
    simp
  · rw [List.eraseIdx_eq_take_drop_succ]
    exact (hq3.del).release _
  · rw [List.length_eraseIdx]; simp [hlt]
  · simp [q_release_element, List.getElem?_eq_getElem hlt]

theorem q_delete_mid_correct_witness :
    ∃ m', q_delete_mid 6 exFive 1 = .ok (m', true) ∧
      IsQueue m' 1 ([2, 3, 4, 5, 6].eraseIdx ([2, 3, 4, 5, 6].length / 2)) ∧
      ([2, 3, 4, 5, 6].eraseIdx ([2, 3, 4, 5, 6].length / 2)).length =
        [2, 3, 4, 5, 6].length - 1 ∧
      m'.value = exFive.value ∧
      m'.freed = [2, 3, 4, 5, 6][[2, 3, 4, 5, 6].length / 2]?.toList ++ exFive.freed :=
  q_delete_mid_correct exFive 1 [2, 3, 4, 5, 6] 6 (by decide) (by decide) (by decide)

/-- C10 as stated fails: on an absent queue and on an existing empty queue `q_delete_mid`
returns false, not true. -/
theorem q_delete_mid_returns_false_on_empty :
    q_delete_mid 1 Heap.init 0 = .ok (Heap.init, false) ∧
    IsQueue exEmpty 1 [] ∧ q_delete_mid 1 exEmpty 1 = .ok (exEmpty, false) :=
  ⟨rfl, by decide, rfl⟩

/-- C10, amended: on an absent queue and on an existing empty queue `q_delete_mid` changes
nothing and returns false. -/
theorem q_delete_mid_absent_or_empty (m : Heap) (head fuel : Nat)
    (h : head = 0 ∨ IsQueue m head []) :
    q_delete_mid fuel m head = .ok (m, false) := by
  rcases h with rfl | hq
  · simp [q_delete_mid]
  · simp [q_delete_mid, hq.empty_iff.2 rfl]

theorem q_delete_mid_absent_or_empty_witness :
    q_delete_mid 1 exEmpty 1 = .ok (exEmpty, false) :=
  q_delete_mid_absent_or_empty exEmpty 1 1 (Or.inr (by decide))


/-! ### C11, C12: removal at the head and at the tail -/

theorem strncpy_short (dst v : List Nat) (n : Nat) (h : (cstr v).length < n) :
    (strncpy dst v n).take n = cstr v ++ List.replicate (n - (cstr v).length) 0 := by
  have hlen : (cstr v ++ List.replicate (n - (cstr v).length) 0).length = n := by
    simp; omega
  unfold strncpy
  rw [List.take_of_length_le (l := cstr v ++ List.replicate (n - (cstr v).length) 0)
    (by rw [hlen]), List.take_append_of_le_length (by rw [hlen]),
    List.take_of_length_le (by rw [hlen])]

theorem strncpy_long (dst v : List Nat) (n : Nat) (h : n ≤ (cstr v).length) :
    (strncpy dst v n).take n = (cstr v).take n := by
  have h0 : n - (cstr v).length = 0 := by omega
  have hlen : ((cstr v).take n).length = n := by simp; omega
  unfold strncpy
  rw [h0, List.replicate_zero, List.append_nil,
    List.take_append_of_le_length (by rw [hlen]), List.take_take, Nat.min_self]

theorem zero_not_mem_cstr (v : List Nat) : 0 ∉ cstr v := by
  intro h
  have := List.mem_takeWhile_imp h
  simp at this

/-- When the stored string has `bufsize` bytes or more, the `bufsize` bytes that `strncpy`
writes contain no NUL. -/
theorem strncpy_long_no_nul (dst v : List Nat) (n : Nat) (h : n ≤ (cstr v).length) :
    0 ∉ (strncpy dst v n).take n := by
  rw [strncpy_long dst v n h]
  exact fun h0 => zero_not_mem_cstr v (List.mem_of_mem_take h0)

/-- C11 fails: on the queue "ab", "cd" with a buffer of `bufsize = 2` bytes, `q_remove_head`
and `q_remove_tail` leave the two bytes of the removed value in the buffer and no NUL. -/
theorem q_remove_no_terminator :
    IsQueue exLong 1 [2, 3] ∧
    (∃ m', q_remove_head exLong 1 (some [120, 120]) 2 = .ok (m', 2, some [97, 98])) ∧
    (∃ m', q_remove_tail exLong 1 (some [120, 120]) 2 = .ok (m', 3, some [99, 100])) :=
  ⟨by decide, ⟨_, rfl⟩, ⟨_, rfl⟩⟩

theorem q_remove_head_spec {m : Heap} {head x : Nat} {L : List Nat} (buf : List Nat)
    (bufsize : Nat) (hq : IsQueue m head (x :: L)) :
    q_remove_head m head (some buf) bufsize =
      .ok (list_del m x, x, some (strncpy buf (m.value x) bufsize)) := by
  have h0 : head ≠ 0 := hq.not_zero (by simp)
  have hemp : list_empty m head = false := by
    rw [Bool.eq_false_iff]; exact fun h => by simpa using hq.empty_iff.1 h
  have hn : m.next head = x := by simpa using hq.next_head
  simp [q_remove_head, h0, hemp, hn]

theorem q_remove_tail_spec {m : Heap} {head x : Nat} {L : List Nat} (buf : List Nat)
    (bufsize : Nat) (hq : IsQueue m head (L ++ [x])) :
    q_remove_tail m head (some buf) bufsize =
      .ok (list_del m x, x, some (strncpy buf (m.value x) bufsize)) := by
  have h0 : head ≠ 0 := hq.not_zero (by simp)
  have hemp : list_empty m head = false := by
    rw [Bool.eq_false_iff]; exact fun h => by simpa using hq.empty_iff.1 h
  have hp : m.prev head = x := by
    have := hq.prev_head
    rwa [lst_append_singleton] at this
  simp [q_remove_tail, h0, hemp, hp]

/-- C12: `q_remove_head` and `q_remove_tail` return `NULL` and leave the heap and the buffer
as they were on an absent queue and on an empty queue; on a non-empty queue (with a buffer
provided) `q_remove_head` returns the first node and `q_remove_tail` the last node, neither
being `NULL`, and the queue afterwards holds the remaining nodes in their original order. -/
theorem q_remove_correct (m : Heap) (head : Nat) (L buf : List Nat) (bufsize : Nat)
    (hq : IsQueue m head L) :
    (∀ sp, q_remove_head m 0 sp bufsize = .ok (m, 0, sp) ∧
      q_remove_tail m 0 sp bufsize = .ok (m, 0, sp)) ∧
    (L = [] → ∀ sp, q_remove_head m head sp bufsize = .ok (m, 0, sp) ∧
      q_remove_tail m head sp bufsize = .ok (m, 0, sp)) ∧
    (∀ x R, L = x :: R → ∃ m' b, q_remove_head m head (some buf) bufsize = .ok (m', x, some b) ∧
      x ≠ 0 ∧ IsQueue m' head R ∧ m'.value = m.value) ∧
    (∀ x R, L = R ++ [x] → ∃ m' b, q_remove_tail m head (some buf) bufsize = .ok (m', x, some b) ∧
      x ≠ 0 ∧ IsQueue m' head R ∧ m'.value = m.value) := by
  refine ⟨fun sp => by simp [q_remove_head, q_remove_tail], ?_, ?_, ?_⟩
  · rintro rfl sp
    simp [q_remove_head, q_remove_tail, hq.empty_iff.2 rfl]
  · rintro x R rfl
    exact ⟨_, _, q_remove_head_spec buf bufsize hq, hq.not_zero (by simp),
      by simpa using hq.del (A := []), rfl⟩
  · rintro x R rfl
    exact ⟨_, _, q_remove_tail_spec buf bufsize hq, hq.not_zero (by simp),
      by simpa using hq.del (B := []), rfl⟩

theorem q_remove_correct_witness :
    (∀ sp, q_remove_head exFive 0 sp 8 = .ok (exFive, 0, sp) ∧
      q_remove_tail exFive 0 sp 8 = .ok (exFive, 0, sp)) ∧
    ([2, 3, 4, 5, 6] = [] → ∀ sp, q_remove_head exFive 1 sp 8 = .ok (exFive, 0, sp) ∧
      q_remove_tail exFive 1 sp 8 = .ok (exFive, 0, sp)) ∧
    (∀ x R, [2, 3, 4, 5, 6] = x :: R →
      ∃ m' b, q_remove_head exFive 1 (some [0, 0, 0, 0, 0, 0, 0, 0]) 8 = .ok (m', x, some b) ∧
      x ≠ 0 ∧ IsQueue m' 1 R ∧ m'.value = exFive.value) ∧
    (∀ x R, [2, 3, 4, 5, 6] = R ++ [x] →
      ∃ m' b, q_remove_tail exFive 1 (some [0, 0, 0, 0, 0, 0, 0, 0]) 8 = .ok (m', x, some b) ∧
      x ≠ 0 ∧ IsQueue m' 1 R ∧ m'.value = exFive.value) :=
  q_remove_correct exFive 1 [2, 3, 4, 5, 6] [0, 0, 0, 0, 0, 0, 0, 0] 8 (by decide)


/-! ### C13: insertion at the head and at the tail -/

theorem IsQueue.setValue {m : Heap} {h : Nat} {L : List Nat} (hq : IsQueue m h L) (p : Nat)
    (v : List Nat) : IsQueue (m.setValue p v) h L := hq

theorem list_add_eq_add_tail {m : Heap} {h x : Nat} {L : List Nat} (hq : IsQueue m h L)
    (hx : x ∉ h :: L) : list_add m x h = list_add_tail m x (hd L h) := by
  have hn : m.next h = hd L h := hq.next_head
  have hp : m.prev (hd L h) = h := by
    cases L with
    | nil => simpa using hq.prev_head
    | cons b B => simpa using hq.prev_mid (A := [])
  have hxh : x ≠ h := by rintro rfl; simp at hx
  have hxn : x ≠ hd L h := by
    rintro rfl
    rcases hd_mem L h with e | e
    · exact hxh e
    · exact hx (List.mem_cons_of_mem _ e)
  apply Heap.ext_fields <;> try rfl
  · intro y
    by_cases h1 : y = h
    · subst h1
      have : ¬ y = x := fun e => hxh e.symm
      simp [list_add, list_add_tail, Heap.setNext, Heap.setPrev, hn, hp, this]
    · simp [list_add, list_add_tail, Heap.setNext, Heap.setPrev, hn, hp, h1]
  · intro y
    by_cases h1 : y = x
    · subst h1
      simp [list_add, list_add_tail, Heap.setNext, Heap.setPrev, hn, hp, hxn]
    · simp [list_add, list_add_tail, Heap.setNext, Heap.setPrev, hn, hp, h1]

theorem cstr_eq_self {s : List Nat} (hs : 0 ∉ s) : cstr s = s := by
  unfold cstr
  rw [List.takeWhile_eq_self_iff]
  intro b hb
  simp only [bne_iff_ne, ne_eq]
  rintro rfl; exact hs hb

/-- C13: on a present queue with nodes `L`, for the bytes `s` of a string (no NUL among them),
when the allocation succeeds with a fresh address `p`, `q_insert_head` returns true and leaves the nodes `p :: L`, and `q_insert_tail`
returns true and leaves `L ++ [p]`, where `p` holds the string `s` and the other values are
untouched, so that the sequence of values is `s :: values` and `values ++ [s]`; on an absent
queue both return false and change nothing. -/
theorem q_insert_correct (m : Heap) (head : Nat) (L : List Nat) (s : List Nat) (p : Nat)
    (hq : IsQueue m head L) (hs : 0 ∉ s) (hp0 : p ≠ 0) (hp : p ∉ head :: L) :
    (∃ m', q_insert_head m head s p true = (m', true) ∧ IsQueue m' head (p :: L) ∧
      (p :: L).map m'.value = s :: L.map m.value) ∧
    (∃ m', q_insert_tail m head s p true = (m', true) ∧ IsQueue m' head (L ++ [p]) ∧
      (L ++ [p]).map m'.value = L.map m.value ++ [s]) ∧
    (∀ ret ok, q_insert_head m 0 s ret ok = (m, false) ∧
      q_insert_tail m 0 s ret ok = (m, false)) := by
  have h0 : head ≠ 0 := hq.not_zero (by simp)
  have hvals : ∀ x ∈ L, (m.setValue p (cstr s)).value x = m.value x := by
    intro x hx
    have : x ≠ p := by rintro rfl; exact hp (List.mem_cons_of_mem _ hx)
    simp [Heap.setValue, this]
  have hvp : (m.setValue p (cstr s)).value p = s := by
    simp [Heap.setValue, cstr_eq_self hs]
  have hq1 : IsQueue (m.setValue p (cstr s)) head L := hq.setValue p (cstr s)
  refine ⟨⟨list_add (m.setValue p (cstr s)) p head, ?_, ?_, ?_⟩,
    ⟨list_add_tail (m.setValue p (cstr s)) p head, ?_, ?_, ?_⟩, ?_⟩
  · simp [q_insert_head, e_new, h0, hp0]
  · rw [list_add_eq_add_tail hq1 hp]
    simpa using IsQueue.add_tail (A := []) (B := L) (x := p) (by simpa using hq1)
      (by simpa using hp) hp0
  · simp only [List.map_cons]
    congr 1
    exact List.map_congr_left hvals
  · simp [q_insert_tail, e_new, h0, hp0]
  · simpa using IsQueue.add_tail (A := L) (B := []) (x := p) (by simpa using hq1)
      (by simpa using hp) hp0
  · simp only [List.map_append, List.map_cons, List.map_nil]
    congr 1
    · exact List.map_congr_left hvals
    · exact congrArg (fun v => [v]) hvp
  · intro ret ok; simp [q_insert_head, q_insert_tail]

theorem q_insert_correct_witness :
    (∃ m', q_insert_head exIns 1 [97] 4 true = (m', true) ∧ IsQueue m' 1 (4 :: [2, 3]) ∧
      (4 :: [2, 3]).map m'.value = [97] :: [2, 3].map exIns.value) ∧
    (∃ m', q_insert_tail exIns 1 [97] 4 true = (m', true) ∧ IsQueue m' 1 ([2, 3] ++ [4]) ∧
      ([2, 3] ++ [4]).map m'.value = [2, 3].map exIns.value ++ [[97]]) ∧
    (∀ ret ok, q_insert_head exIns 0 [97] ret ok = (exIns, false) ∧
      q_insert_tail exIns 0 [97] ret ok = (exIns, false)) :=
  q_insert_correct exIns 1 [2, 3] [97] 4 (by decide) (by decide) (by decide) (by decide)


/-! ### C14: size -/

/-- C14: `q_size` returns `-1` on an absent queue, `0` on an existing empty queue and
otherwise the number of data nodes reachable from the sentinel; it only reads the heap (the
model of `q_size` returns no heap, the source writes to none). -/
theorem q_size_correct (m : Heap) (head : Nat) (L : List Nat) (fuel : Nat)
    (hq : IsQueue m head L) (hf : L.length + 1 ≤ fuel) :
    q_size fuel m 0 = .ok (-1) ∧ q_size fuel m head = .ok (L.length : Int) ∧
    (L = [] → q_size fuel m head = .ok 0) := by
  refine ⟨by simp [q_size], q_size_spec hq hf, ?_⟩
  rintro rfl
  simpa using q_size_spec hq hf

theorem q_size_correct_witness :
    q_size 6 exFive 0 = .ok (-1) ∧ q_size 6 exFive 1 = .ok (([2, 3, 4, 5, 6].length : Nat) : Int) ∧
    ([2, 3, 4, 5, 6] = [] → q_size 6 exFive 1 = .ok 0) :=
  q_size_correct exFive 1 [2, 3, 4, 5, 6] 6 (by decide) (by decide)

/-- The examples of §8: an empty queue has size `0`. -/
theorem q_size_empty_example : q_size 1 exEmpty 1 = .ok 0 := rfl

/-! ### C15: the monotonic filters -/

/-- C15 fails: on the queue "b", "a" the element "b" has the strictly smaller "a" to its
right, and on the queue "a", "b" the element "a" has the strictly greater "b" to its right,
yet `q_ascend` and `q_descend` return `0`; their bodies touch no node. -/
theorem q_ascend_descend_stub :
    (IsQueue exDown 1 [2, 3] ∧ ele_compare exDown 3 2 < 0 ∧ q_ascend exDown 1 = 0) ∧
    (IsQueue exUp 1 [2, 3] ∧ ele_compare exUp 3 2 > 0 ∧ q_descend exUp 1 = 0) :=
  ⟨⟨by decide, by decide, rfl⟩, ⟨by decide, by decide, rfl⟩⟩


/-! ### C16: absent queue handles -/

/-- C16 as stated fails: with an absent `dest`, and with an absent `src`,
`q_merge_two_queues` dereferences the `NULL` handle. -/
theorem q_merge_two_queues_null_deref :
    q_merge_two_queues 5 exMerge 0 5 false = .error .nullDeref ∧
    q_merge_two_queues 5 exMerge 1 0 false = .error .nullDeref :=
  ⟨rfl, rfl⟩

/-- On an absent queue `q_swap` dereferences the `NULL` handle in its loop header. -/
theorem q_swap_null (fuel : Nat) (m : Heap) : q_swap fuel m 0 = .error .nullDeref := by
  simp [q_swap]

/-- C16, amended: called with an absent queue, `q_free`, `q_insert_head`, `q_insert_tail`,
`q_remove_head`, `q_remove_tail`, `q_size`, `q_delete_mid`, `q_delete_dup`, `q_reverse`,
`q_reverseK`, `q_sort`, `q_ascend`, `q_descend` and `q_merge` return their failure or no-op
result and leave the heap as it was, whatever the heap holds; `q_merge_two_queues` does not
check its handles (its stated precondition is that both queues are present) and dereferences
an absent `dest` or `src`. -/
theorem absent_queue_handling (m : Heap) (head : Nat) (L : List Nat) (fuel : Nat)
    (s : List Nat) (ret : Nat) (ok : Bool) (sp : Option (List Nat)) (bufsize : Nat) (k : Int)
    (descend : Bool) (frame : Nat)
    (hq : IsQueue m head L) (hf : L.length + 1 ≤ fuel) :
    q_free fuel m 0 = .ok m ∧
    q_insert_head m 0 s ret ok = (m, false) ∧
    q_insert_tail m 0 s ret ok = (m, false) ∧
    q_remove_head m 0 sp bufsize = .ok (m, 0, sp) ∧
    q_remove_tail m 0 sp bufsize = .ok (m, 0, sp) ∧
    q_size fuel m 0 = .ok (-1) ∧
    q_delete_mid fuel m 0 = .ok (m, false) ∧
    q_delete_dup fuel m 0 = .ok (m, false) ∧
    q_reverse fuel m 0 = .ok m ∧
    q_reverseK fuel m 0 k = .ok m ∧
    q_sort fuel m 0 descend frame = .ok m ∧
    q_ascend m 0 = 0 ∧ q_descend m 0 = 0 ∧
    q_merge fuel m 0 descend = .ok (m, 0) ∧
    q_merge_two_queues fuel m 0 head descend = .error .nullDeref ∧
    q_merge_two_queues fuel m head 0 descend = .error .nullDeref := by
  obtain ⟨f, rfl⟩ : ∃ f, fuel = f + 1 := ⟨fuel - 1, by omega⟩
  have hsz : q_size (f + 1) m head = .ok (L.length : Int) := q_size_spec hq hf
  have h0 : head ≠ 0 := hq.not_zero (by simp)
  refine ⟨by simp [q_free], by simp [q_insert_head], by simp [q_insert_tail],
    by simp [q_remove_head], by simp [q_remove_tail], by simp [q_size],
    by simp [q_delete_mid], by simp [q_delete_dup], by simp [q_reverse],
    by simp [q_reverseK], by simp [q_sort], rfl, rfl, by simp [q_merge], ?_, ?_⟩
  · have : q_size (f + 1) m 0 = .ok (-1) := by simp [q_size]
    simp only [q_merge_two_queues, this, hsz, ok_bind]
    rfl
  · have : q_size (f + 1) m 0 = .ok (-1) := by simp [q_size]
    simp only [q_merge_two_queues, this, hsz, ok_bind, h0, if_false]
    rfl

theorem absent_queue_handling_witness :
    q_free 6 exFive 0 = .ok exFive ∧
    q_insert_head exFive 0 [97] 9 true = (exFive, false) ∧
    q_insert_tail exFive 0 [97] 9 true = (exFive, false) ∧
    q_remove_head exFive 0 none 4 = .ok (exFive, 0, none) ∧
    q_remove_tail exFive 0 none 4 = .ok (exFive, 0, none) ∧
    q_size 6 exFive 0 = .ok (-1) ∧
    q_delete_mid 6 exFive 0 = .ok (exFive, false) ∧
    q_delete_dup 6 exFive 0 = .ok (exFive, false) ∧
    q_reverse 6 exFive 0 = .ok exFive ∧
    q_reverseK 6 exFive 0 2 = .ok exFive ∧
    q_sort 6 exFive 0 false 10 = .ok exFive ∧
    q_ascend exFive 0 = 0 ∧ q_descend exFive 0 = 0 ∧
    q_merge 6 exFive 0 false = .ok (exFive, 0) ∧
    q_merge_two_queues 6 exFive 0 1 false = .error .nullDeref ∧
    q_merge_two_queues 6 exFive 1 0 false = .error .nullDeref :=
  absent_queue_handling exFive 1 [2, 3, 4, 5, 6] 6 [97] 9 true none 4 2 false 10 (by decide)
    (by decide)

/-! ### C17: reversing twice -/

/-- C17: on a present queue, `q_reverse` applied twice gives back the very heap it started
from: every `next` and `prev` link, of the sentinel and of every node, is as before, and so is
the order of the nodes.  On an absent queue both calls change nothing. -/
theorem q_reverse_involution (m : Heap) (head : Nat) (L : List Nat) (fuel : Nat)
    (hq : IsQueue m head L) (hf : L.length + 1 ≤ fuel) :
    (∃ m', q_reverse fuel m head = .ok m' ∧ q_reverse fuel m' head = .ok m) ∧
    q_reverse fuel m 0 = .ok m := by
  refine ⟨⟨flipAll m (head :: L), q_reverse_spec hq hf, ?_⟩, by simp [q_reverse]⟩
  have hq' : IsQueue (flipAll m (head :: L)) head L.reverse := hq.flipAll
  rw [q_reverse_spec hq' (by simpa using hf)]
  congr 1
  apply Heap.ext_fields <;> try rfl
  · intro y
    by_cases hy : y ∈ head :: L
    · have hy' : y ∈ head :: L.reverse := by simp at hy ⊢; exact hy
      simp only [flipAll, hy, hy', if_true]
    · have hy' : y ∉ head :: L.reverse := by simp at hy ⊢; exact hy
      simp only [flipAll, hy, hy', if_false]
  · intro y
    by_cases hy : y ∈ head :: L
    · have hy' : y ∈ head :: L.reverse := by simp at hy ⊢; exact hy
      simp only [flipAll, hy, hy', if_true]
    · have hy' : y ∉ head :: L.reverse := by simp at hy ⊢; exact hy
      simp only [flipAll, hy, hy', if_false]

theorem q_reverse_involution_witness :
    (∃ m', q_reverse 6 exFive 1 = .ok m' ∧ q_reverse 6 m' 1 = .ok exFive) ∧
    q_reverse 6 exFive 0 = .ok exFive :=
  q_reverse_involution exFive 1 [2, 3, 4, 5, 6] 6 (by decide) (by decide)

/-! ### C18: sorting twice -/

theorem strcmp_cstr_left : ∀ a b : List Nat, strcmp (cstr a) b = strcmp a b
  | [], b => by simp [cstr]
  | x :: as, [] => by
    by_cases hx : x = 0
    · subst hx; simp [cstr, strcmp]
    · simp [cstr, hx, strcmp]
  | x :: as, y :: bs => by
    have ih := strcmp_cstr_left as bs
    by_cases hx : x = 0
    · subst hx
      by_cases hy : y = 0
      · subst hy; simp [cstr, strcmp]
      · have : ¬ (0 = y) := fun h => hy h.symm
        simp [cstr, strcmp, this]
    · have e : cstr (x :: as) = x :: cstr as := by simp [cstr, hx]
      rw [e]
      by_cases hxy : x = y
      · subst hxy; simp [strcmp, hx, ih]
      · simp [strcmp, hxy]

theorem strcmp_cstr (a b : List Nat) : strcmp (cstr a) (cstr b) = strcmp a b := by
  rw [strcmp_cstr_left, strcmp_antisymm, strcmp_cstr_left, ← strcmp_antisymm]

theorem eq_of_strcmp_eq_zero : ∀ a b : List Nat, 0 ∉ a → 0 ∉ b → strcmp a b = 0 → a = b
  | [], [], _, _, _ => rfl
  | [], y :: bs, _, hb, h => by
    simp [strcmp] at h
    subst h; simp at hb
  | x :: as, [], ha, _, h => by
    simp [strcmp] at h
    subst h; simp at ha
  | x :: as, y :: bs, ha, hb, h => by
    have hx : x ≠ 0 := by rintro rfl; simp at ha
    by_cases hxy : x = y
    · subst hxy
      simp [strcmp, hx] at h
      rw [eq_of_strcmp_eq_zero as bs (fun h0 => ha (List.mem_cons_of_mem _ h0))
        (fun h0 => hb (List.mem_cons_of_mem _ h0)) h]
    · simp [strcmp, hxy] at h
      omega

/-- Two lists of strings that are permutations of each other and are both in `strcmp` order
are the same list. -/
theorem sorted_perm_strings_eq (d : Bool) : ∀ (A B : List (List Nat)), A.Perm B →
    A.Pairwise (fun a b => if d then 0 ≤ strcmp a b else strcmp a b ≤ 0) →
    B.Pairwise (fun a b => if d then 0 ≤ strcmp a b else strcmp a b ≤ 0) →
    (∀ a ∈ A, 0 ∉ a) → A = B
  | [], B, hp, _, _, _ => (List.Perm.nil_eq hp)
  | a :: A, [], hp, _, _, _ => absurd hp.symm (List.not_perm_nil_cons _ _)
  | a :: A, b :: B, hp, hA, hB, hz => by
    have hbA : b ∈ a :: A := hp.symm.subset (List.mem_cons_self _ _)
    have haB : a ∈ b :: B := hp.subset (List.mem_cons_self _ _)
    have hab : a = b := by
      by_cases h : a = b
      · exact h
      · have hb' : b ∈ A := by
          rcases List.mem_cons.1 hbA with e | e
          · exact absurd e.symm h
          · exact e
        have ha' : a ∈ B := by
          rcases List.mem_cons.1 haB with e | e
          · exact absurd e h
          · exact e
        have r1 := List.rel_of_pairwise_cons hA hb'
        have r2 := List.rel_of_pairwise_cons hB ha'
        have has := strcmp_antisymm a b
        have h0 : strcmp a b = 0 := by
          cases d <;> simp at r1 r2 <;> omega
        exact eq_of_strcmp_eq_zero a b (hz a (List.mem_cons_self _ _)) (hz b hbA) h0
    subst hab
    rw [sorted_perm_strings_eq d A B (List.Perm.cons_inv hp) (List.pairwise_cons.1 hA).2
      (List.pairwise_cons.1 hB).2 (fun x hx => hz x (List.mem_cons_of_mem _ hx))]

/-- Two sorted arrangements of the same nodes hold the same sequence of strings. -/
theorem sorted_perm_values (m : Heap) (d : Bool) (L1 L2 : List Nat) (hp : L1.Perm L2)
    (h1 : Sorted m d L1) (h2 : Sorted m d L2) :
    L1.map (fun x => cstr (m.value x)) = L2.map (fun x => cstr (m.value x)) := by
  apply sorted_perm_strings_eq d _ _ (hp.map _)
  · rw [List.pairwise_map]
    simpa [Sorted, ele_compare, strcmp_cstr] using h1
  · rw [List.pairwise_map]
    simpa [Sorted, ele_compare, strcmp_cstr] using h2
  · intro a ha
    obtain ⟨x, -, rfl⟩ := List.mem_map.1 ha
    exact zero_not_mem_cstr _


/-- C18: on a present queue, a second call of `q_sort` leaves the queue in the state the first
call left it in: a well-formed queue of the same nodes, sorted, holding the same sequence of
strings (the same sequence of stored values when no stored value contains a NUL byte). -/
theorem q_sort_idempotent (m : Heap) (head : Nat) (L : List Nat) (descend : Bool)
    (frame fuel : Nat) (hq : IsQueue m head L) (hframe : ∀ x ∈ head :: L, x < frame)
    (hfuel : L.length + 1 ≤ fuel) :
    ∃ m1 R1 m2 R2, q_sort fuel m head descend frame = .ok m1 ∧ IsQueue m1 head R1 ∧
      q_sort fuel m1 head descend frame = .ok m2 ∧ IsQueue m2 head R2 ∧
      Sorted m1 descend R1 ∧ Sorted m2 descend R2 ∧ R2.Perm R1 ∧ m2.value = m1.value ∧
      R2.map (fun x => cstr (m2.value x)) = R1.map (fun x => cstr (m1.value x)) ∧
      ((∀ x ∈ L, 0 ∉ m.value x) → R2.map m2.value = R1.map m1.value) := by
  obtain ⟨m1, R1, hrun1, hq1, hs1, hp1, hv1, -, -⟩ :=
    q_sort_spec descend fuel m head L frame hq hframe hfuel
  have hframe1 : ∀ x ∈ head :: R1, x < frame := by
    intro x hx
    rcases List.mem_cons.1 hx with e | e
    · exact hframe x (by simp [e])
    · exact hframe x (List.mem_cons_of_mem _ (hp1.subset e))
  obtain ⟨m2, R2, hrun2, hq2, hs2, hp2, hv2, -, -⟩ :=
    q_sort_spec descend fuel m1 head R1 frame hq1 hframe1 (by rw [hp1.length_eq]; exact hfuel)
  have hstr : R2.map (fun x => cstr (m2.value x)) = R1.map (fun x => cstr (m1.value x)) := by
    rw [hv2]
    exact sorted_perm_values m1 descend R2 R1 hp2 (hs2.congr hv2.symm) hs1
  refine ⟨m1, R1, m2, R2, hrun1, hq1, hrun2, hq2, hs1, hs2, hp2, hv2, hstr, ?_⟩
  intro hz
  have h1 : ∀ x ∈ R1, cstr (m1.value x) = m1.value x := by
    intro x hx
    rw [hv1]
    exact cstr_eq_self (hz x (hp1.subset hx))
  have h2 : ∀ x ∈ R2, cstr (m2.value x) = m2.value x := by
    intro x hx
    rw [hv2]
    exact h1 x (hp2.subset hx)
  rw [← List.map_congr_left h1, ← List.map_congr_left h2]
  exact hstr

theorem q_sort_idempotent_witness :
    ∃ m1 R1 m2 R2, q_sort 3 exTie 1 false 10 = .ok m1 ∧ IsQueue m1 1 R1 ∧
      q_sort 3 m1 1 false 10 = .ok m2 ∧ IsQueue m2 1 R2 ∧
      Sorted m1 false R1 ∧ Sorted m2 false R2 ∧ R2.Perm R1 ∧ m2.value = m1.value ∧
      R2.map (fun x => cstr (m2.value x)) = R1.map (fun x => cstr (m1.value x)) ∧
      ((∀ x ∈ [2, 3], 0 ∉ exTie.value x) → R2.map m2.value = R1.map m1.value) :=
  q_sort_idempotent exTie 1 [2, 3] false 10 3 (by decide) (by decide) (by decide)

/-- Node identity: on a queue of two elements with equal values, the first `q_sort` exchanges
the two nodes and the second one exchanges them back; the sequence of values is the same
after one call and after two. -/
theorem q_sort_twice_exchanges_ties :
    ∃ m1 m2, q_sort 3 exTie 1 false 10 = .ok m1 ∧ q_sort 3 m1 1 false 10 = .ok m2 ∧
      IsQueue exTie 1 [2, 3] ∧ IsQueue m1 1 [3, 2] ∧ IsQueue m2 1 [2, 3] :=
  ⟨_, _, rfl, rfl, by decide, by decide, by decide⟩

/-! ### C19: the circular invariant is preserved -/

/-- C19: for a present well-formed queue, the queue is again well-formed (circular through
all its nodes once, `prev` inverse of `next`) after `q_swap`, after `q_reverse`, after
`q_delete_dup`, after `q_sort`, and, for both `dest` and a second well-formed queue `src`
sharing no node with it, after `q_merge_two_queues`. -/
theorem invariant_preserved (m : Heap) (head src : Nat) (L S : List Nat) (descend : Bool)
    (frame fuel : Nat) (hq : IsQueue m head L) (hqs : IsQueue m src S)
    (hdisj : ∀ x ∈ head :: L, x ∉ src :: S) (hframe : ∀ x ∈ head :: L, x < frame)
    (hf : L.length + S.length + 1 ≤ fuel) :
    (∃ m' R, q_swap fuel m head = .ok m' ∧ IsQueue m' head R) ∧
    (∃ m' R, q_reverse fuel m head = .ok m' ∧ IsQueue m' head R) ∧
    (∃ m' R, q_delete_dup fuel m head = .ok (m', true) ∧ IsQueue m' head R) ∧
    (∃ m' R, q_sort fuel m head descend frame = .ok m' ∧ IsQueue m' head R) ∧
    (∃ m' n R, q_merge_two_queues fuel m head src descend = .ok (m', n) ∧
      IsQueue m' head R ∧ IsQueue m' src []) := by
  have h0 : head ≠ 0 := hq.not_zero (by simp)
  have hf1 : L.length + 1 ≤ fuel := by omega
  refine ⟨?_, ?_, ?_, ?_, ?_⟩
  · obtain ⟨m', h1, h2, -⟩ := q_swap_correct m head L fuel hq hf1
    exact ⟨m', _, h1, h2⟩
  · exact ⟨_, _, q_reverse_spec hq hf1, hq.flipAll⟩
  · by_cases hL : L = []
    · subst hL
      exact ⟨m, [], by simp [q_delete_dup, h0, hq.empty_iff.2 rfl], hq⟩
    · have hemp : list_empty m head = false := by
        rw [Bool.eq_false_iff]; exact fun h => hL (hq.empty_iff.1 h)
      obtain ⟨m', hrun, hq', -, -, -⟩ :=
        q_delete_dup_loop_spec head L [] fuel m false (by simpa using hq) hf1
      rw [← hq.next_head] at hrun
      exact ⟨m', _, by simp [q_delete_dup, h0, hemp, hrun], hq'⟩
  · obtain ⟨m', R, h1, h2, -⟩ := q_sort_spec descend fuel m head L frame hq hframe hf1
    exact ⟨m', R, h1, h2⟩
  · obtain ⟨m', h1, h2, h3, -⟩ :=
      q_merge_two_queues_spec m head src L S descend fuel hq hqs hdisj hf
    exact ⟨m', _, _, h1, h2, h3⟩

theorem invariant_preserved_witness :
    (∃ m' R, q_swap 5 exMerge 1 = .ok m' ∧ IsQueue m' 1 R) ∧
    (∃ m' R, q_reverse 5 exMerge 1 = .ok m' ∧ IsQueue m' 1 R) ∧
    (∃ m' R, q_delete_dup 5 exMerge 1 = .ok (m', true) ∧ IsQueue m' 1 R) ∧
    (∃ m' R, q_sort 5 exMerge 1 true 10 = .ok m' ∧ IsQueue m' 1 R) ∧
    (∃ m' n R, q_merge_two_queues 5 exMerge 1 5 true = .ok (m', n) ∧
      IsQueue m' 1 R ∧ IsQueue m' 5 []) :=
  invariant_preserved exMerge 1 5 [2, 3] [6, 7] true 10 5 (by decide) (by decide) (by decide)
    (by decide) (by decide)

/-! ### C20: stability of the two-way merge -/

theorem mergeList_sublist_dest (comp : Nat → Nat → Bool) :
    ∀ S D : List Nat, D.Sublist (mergeList comp S D)
  | [], D => by simp [mergeList]
  | s :: S, D => by
    have ih := mergeList_sublist_dest comp S (D.dropWhile (fun d => !comp s d))
    have h := (List.Sublist.refl (D.takeWhile (fun d => !comp s d))).append
      (List.Sublist.cons s ih)
    rwa [List.takeWhile_append_dropWhile] at h

theorem mergeList_sublist_src (comp : Nat → Nat → Bool) :
    ∀ S D : List Nat, S.Sublist (mergeList comp S D)
  | [], D => by simp
  | s :: S, D => by
    have ih := mergeList_sublist_src comp S (D.dropWhile (fun d => !comp s d))
    exact List.sublist_append_of_sublist_right (List.Sublist.cons₂ s ih)

theorem mergeList_tie (r : Nat → Nat → Prop) (comp : Nat → Nat → Bool)
    (hcomp : ∀ s d, comp s d = true ↔ ¬ r d s) (htr : ∀ a b c, r a b → r b c → r a c) :
    ∀ S D : List Nat, D.Pairwise r → ∀ d ∈ D, ∀ s ∈ S, r d s →
      [d, s].Sublist (mergeList comp S D)
  | [], _, _, _, _, _, hs, _ => by simp at hs
  | s0 :: S, D, hD, d, hd, s, hs, hds => by
    have hsplit := List.takeWhile_append_dropWhile (fun d => !comp s0 d) D
    generalize hD0 : D.takeWhile (fun d => !comp s0 d) = D0 at hsplit
    generalize hD1 : D.dropWhile (fun d => !comp s0 d) = D1 at hsplit
    have hD' : (D0 ++ D1).Pairwise r := by rw [hsplit]; exact hD
    have hP1 : D1.Pairwise r := (List.pairwise_append.1 hD').2.1
    have hmem : d ∈ D0 ∨ d ∈ D1 := by rw [← hsplit] at hd; exact List.mem_append.1 hd
    have hsrc := mergeList_sublist_src comp S D1
    simp only [mergeList, hD0, hD1]
    rcases List.mem_cons.1 hs with rfl | hs'
    · -- the element taken from the source right now
      have hd0 : d ∈ D0 := by
        rcases hmem with h | h
        · exact h
        · exfalso
          cases D1 with
          | nil => simp at h
          | cons d1 D1' =>
            have hc : comp s d1 = true := by
              have := List.head_dropWhile_not (fun d => !comp s d) D (by rw [hD1]; simp)
              simp [hD1] at this
              exact this
            have hn : ¬ r d1 s := (hcomp s d1).1 hc
            rcases List.mem_cons.1 h with rfl | h'
            · exact hn hds
            · exact hn (htr _ _ _ (List.rel_of_pairwise_cons hP1 h') hds)
      have h1 : [d].Sublist D0 := List.singleton_sublist.2 hd0
      have h2 : [s].Sublist (s :: mergeList comp S D1) :=
        List.singleton_sublist.2 (List.mem_cons_self _ _)
      exact h1.append h2
    · rcases hmem with h | h
      · have h1 : [d].Sublist D0 := List.singleton_sublist.2 h
        have h2 : [s].Sublist (s0 :: mergeList comp S D1) :=
          List.singleton_sublist.2 (List.mem_cons_of_mem _ (hsrc.subset hs'))
        exact h1.append h2
      · have ih := mergeList_tie r comp hcomp htr S D1 hP1 d h s hs' hds
        exact List.sublist_append_of_sublist_right (List.Sublist.cons s0 ih)

/-- C20: for two present queues with no node in common, both sorted according to
`is_descend`, the queue that `q_merge_two_queues` leaves in `dest` keeps the nodes that came
from `dest` in their relative order and the nodes that came from `src` in theirs, and places
every `src` node after every `dest` node whose value compares equal to its own. -/
theorem q_merge_two_queues_stable (m : Heap) (dest src : Nat) (D S : List Nat)
    (is_descend : Bool) (fuel : Nat)
    (hqd : IsQueue m dest D) (hqs : IsQueue m src S) (hdisj : ∀ x ∈ dest :: D, x ∉ src :: S)
    (hDs : Sorted m is_descend D) (hSs : Sorted m is_descend S)
    (hfuel : D.length + S.length + 1 ≤ fuel) :
    ∃ m' n R, q_merge_two_queues fuel m dest src is_descend = .ok (m', n) ∧
      IsQueue m' dest R ∧ m'.value = m.value ∧ Sorted m' is_descend R ∧
      D.Sublist R ∧ S.Sublist R ∧
      ∀ d ∈ D, ∀ s ∈ S, ele_compare m s d = 0 → [d, s].Sublist R := by
  obtain ⟨m', hrun, h1, -, -, h4, -, -⟩ :=
    q_merge_two_queues_spec m dest src D S is_descend fuel hqd hqs hdisj hfuel
  refine ⟨m', _, _, hrun, h1, h4, (mergeList_sorted m is_descend S D hSs hDs).congr h4,
    mergeList_sublist_dest _ S D, mergeList_sublist_src _ S D, ?_⟩
  intro d hd s hs htie
  refine mergeList_tie
    (fun a b => if is_descend then 0 ≤ ele_compare m a b else ele_compare m a b ≤ 0) _ ?_ ?_
    S D hDs d hd s hs ?_
  · intro s d
    have := strcmp_antisymm (m.value s) (m.value d)
    cases is_descend <;> simp [ele_compare_less, ele_compare_greater, ele_compare] <;> omega
  · intro a b c
    have h1 := strcmp_trans (m.value a) (m.value b) (m.value c)
    have h2 := strcmp_trans (m.value c) (m.value b) (m.value a)
    have := strcmp_antisymm (m.value a) (m.value b)
    have := strcmp_antisymm (m.value b) (m.value c)
    have := strcmp_antisymm (m.value a) (m.value c)
    cases is_descend <;> simp [ele_compare] <;> omega
  · have := strcmp_antisymm (m.value s) (m.value d)
    simp only [ele_compare] at htie ⊢
    cases is_descend <;> simp <;> omega

theorem q_merge_two_queues_stable_witness :
    ∃ m' n R, q_merge_two_queues 5 exStable 1 5 false = .ok (m', n) ∧
      IsQueue m' 1 R ∧ m'.value = exStable.value ∧ Sorted m' false R ∧
      [2, 3].Sublist R ∧ [6, 7].Sublist R ∧
      ∀ d ∈ [2, 3], ∀ s ∈ [6, 7], ele_compare exStable s d = 0 → [d, s].Sublist R :=
  q_merge_two_queues_stable exStable 1 5 [2, 3] [6, 7] false 5 (by decide) (by decide)
    (by decide) (by decide) (by decide) (by decide)

/-- On the queues "a", "b" and "a", "b" the merge places each source node right after the
destination node of equal value. -/
theorem q_merge_two_queues_tie_example :
    ∃ m', q_merge_two_queues 5 exStable 1 5 false = .ok (m', 4) ∧ IsQueue m' 1 [2, 6, 3, 7] :=
  ⟨_, rfl, by decide⟩

end Queue
